import Mathlib

/-!
Verification development for the kdenlive timeline core sources:
the marker/guide list model (markerlistmodel.cpp) and the moveable-item
identity allocation (moveableItem.ipp).

Modelling conventions:
* `GenTime` values are represented by their exact integer frame count
  (`Int`); the sources convert every `GenTime` through
  `pos.frames(pCore->getCurrentFps())` at a fixed frame rate, so frame
  arithmetic is exact (spec section 4.1).
* `std::map<int, CommentedTime>` (`m_markerList`) and `QMap<int, int>`
  (`m_markerPositions`) are both key-sorted maps; they are embedded as
  key-sorted association lists `List (Int × α)` with the operations
  `mapLookup`, `mapInsert` (overwrite on equal key) and `mapRemove`.
* The undo/redo closures (`Fun`) built by the model are lists of primitive
  operations (`PrimOp`), each corresponding to one of the three lambda
  builders in the source (`addMarker_lambda`, `deleteMarker_lambda`,
  `changeComment_lambda`).  A failed `Q_ASSERT` inside an operation is
  modelled as `none`.
-/

/-- First-match lookup in an association list, as `QMap::value` /
`std::map::find` on key-sorted storage. -/
def mapLookup {α : Type} (k : Int) : List (Int × α) → Option α
  | [] => none
  | (k1, v) :: rest => if k = k1 then some v else mapLookup k rest

/-- Key-ordered insertion, overwriting an existing binding, as
`QMap::insert` / `std::map::operator[]`. -/
def mapInsert {α : Type} (k : Int) (v : α) : List (Int × α) → List (Int × α)
  | [] => [(k, v)]
  | (k1, v1) :: rest =>
    if k < k1 then (k, v) :: (k1, v1) :: rest
    else if k = k1 then (k, v) :: rest
    else (k1, v1) :: mapInsert k v rest

/-- Removal of the binding for `k` (first match), as `QMap::remove` /
`std::map::erase`. -/
def mapRemove {α : Type} (k : Int) : List (Int × α) → List (Int × α)
  | [] => []
  | (k1, v1) :: rest => if k = k1 then rest else (k1, v1) :: mapRemove k rest

/-- Keys appear in strictly increasing order (the invariant of the two
C++ ordered maps). -/
def keysSorted {α : Type} : List (Int × α) → Bool
  | [] => true
  | [_] => true
  | a :: b :: rest => decide (a.1 < b.1) && keysSorted ((b :: rest))

/-- A marker: time in frames, comment and type, as class `CommentedTime`. -/
structure CommentedTime where
  time : Int
  comment : String
  markerType : Int
deriving DecidableEq, Repr

/-- The default-constructed `CommentedTime()`: time 0, empty comment. -/
def CommentedTime.empty : CommentedTime := ⟨0, "", 0⟩

/-- A snap consumer registered with the marker model
(`std::weak_ptr<SnapInterface>`).  `alive` models whether the weak
pointer still locks; `points` is the consumer's multiset of snap
positions.  Modelled from the spec: the `SnapInterface` implementation is
not among the sources here; per spec section 6 it exposes
`addPoint(frame)` / `removePoint(frame)` on a multiset of positions. -/
structure SnapConsumer where
  alive : Bool
  points : List Int
deriving DecidableEq, Repr

/-- State of one `MarkerListModel`:
`markerList` is `m_markerList : std::map<int, CommentedTime>` (id-sorted),
`markerPositions` is `m_markerPositions : QMap<int, int>` (frame-sorted,
frame to id), `registeredSnaps` is `m_registeredSnaps`, `guide` is
`m_guide`, and `nextId` is the value of the global monotonic id counter
(`TimelineModel::getNextId`; modelled from the spec, see below). -/
structure MarkerListModel where
  markerList : List (Int × CommentedTime)
  markerPositions : List (Int × Int)
  registeredSnaps : List SnapConsumer
  guide : Bool
  nextId : Int
deriving DecidableEq, Repr

/-- Modelled from the spec: `TimelineModel::getNextId` (TimelineModel is
not among the sources here) draws from the single process-wide monotonic
id counter; each call mints a fresh id strictly greater than every id
handed out before.  Returns the minted id and the advanced counter. -/
def TimelineModel.getNextId (counter : Int) : Int × Int :=
  (counter + 1, counter + 1)

/-- `MarkerListModel::hasMarker(int frame)`. -/
def MarkerListModel.hasMarker (st : MarkerListModel) (frame : Int) : Bool :=
  (mapLookup frame st.markerPositions).isSome

/-- `MarkerListModel::markerIdAtFrame` / `getIdFromPos`: id of the marker
at `frame`, `-1` if there is none. -/
def MarkerListModel.getIdFromPos (st : MarkerListModel) (frame : Int) : Int :=
  match mapLookup frame st.markerPositions with
  | some mid => mid
  | none => -1

/-- `MarkerListModel::marker(int frame)`: the marker at `frame`, or a
default-constructed `CommentedTime` if there is none. -/
def MarkerListModel.marker (st : MarkerListModel) (frame : Int) : CommentedTime :=
  match mapLookup frame st.markerPositions with
  | some mid =>
    match mapLookup mid st.markerList with
    | some ct => ct
    | none => CommentedTime.empty
  | none => CommentedTime.empty

/-- `MarkerListModel::addSnapPoint`: prunes expired snap consumers and
calls `addPoint(pos)` on every live one. -/
def snapAddPoint (pos : Int) (snaps : List SnapConsumer) : List SnapConsumer :=
  (snaps.filter (fun s => s.alive)).map (fun s => ⟨s.alive, pos :: s.points⟩)

/-- `MarkerListModel::removeSnapPoint`: prunes expired snap consumers and
calls `removePoint(pos)` on every live one. -/
def snapRemovePoint (pos : Int) (snaps : List SnapConsumer) : List SnapConsumer :=
  (snaps.filter (fun s => s.alive)).map (fun s => ⟨s.alive, s.points.erase pos⟩)

/-- Body of the closure built by `MarkerListModel::addMarker_lambda`:
mints a fresh id, inserts the marker in both maps and seeds the snap
consumers.  (The lambda's `Q_ASSERT(hasMarker == false)` is checked by
`runOp`.) -/
def MarkerListModel.applyAdd (st : MarkerListModel) (pos : Int) (comment : String)
    (mtype : Int) : MarkerListModel :=
  let r := TimelineModel.getNextId st.nextId
  { st with
    markerList := mapInsert r.1 ⟨pos, comment, mtype⟩ st.markerList
    markerPositions := mapInsert pos r.1 st.markerPositions
    registeredSnaps := snapAddPoint pos st.registeredSnaps
    nextId := r.2 }

/-- Body of the closure built by `MarkerListModel::deleteMarker_lambda`:
erases the marker at `pos` from both maps and notifies snap consumers. -/
def MarkerListModel.applyDel (st : MarkerListModel) (pos : Int) : MarkerListModel :=
  let mid := st.getIdFromPos pos
  { st with
    markerList := mapRemove mid st.markerList
    markerPositions := mapRemove pos st.markerPositions
    registeredSnaps := snapRemovePoint pos st.registeredSnaps }

/-- Body of the closure built by `MarkerListModel::changeComment_lambda`:
overwrites comment and type of the marker at `pos` in place (its time is
untouched).  When the id is not present, `m_markerList[mid]`
default-constructs an entry whose time is 0, mirroring
`std::map::operator[]`. -/
def MarkerListModel.applyChg (st : MarkerListModel) (pos : Int) (comment : String)
    (mtype : Int) : MarkerListModel :=
  let mid := st.getIdFromPos pos
  let t :=
    match mapLookup mid st.markerList with
    | some ct => ct.time
    | none => 0
  { st with markerList := mapInsert mid ⟨t, comment, mtype⟩ st.markerList }

/-- A primitive undoable operation: the three closures produced by
`addMarker_lambda`, `deleteMarker_lambda` and `changeComment_lambda`,
with their captured arguments. -/
inductive PrimOp where
  | add (pos : Int) (comment : String) (mtype : Int)
  | del (pos : Int)
  | chg (pos : Int) (comment : String) (mtype : Int)
deriving DecidableEq, Repr

/-- Executes one primitive closure.  `none` models a failed `Q_ASSERT`
inside the closure (which aborts in the C++ sources). -/
def runOp (op : PrimOp) (st : MarkerListModel) : Option MarkerListModel :=
  match op with
  | .add pos comment mtype =>
    if st.hasMarker pos then none else some (st.applyAdd pos comment mtype)
  | .del pos =>
    if st.hasMarker pos then some (st.applyDel pos) else none
  | .chg pos comment mtype =>
    if st.hasMarker pos then some (st.applyChg pos comment mtype) else none

/-- Executes a composed `Fun` closure, first operation first.  Modelled
from the spec: `UPDATE_UNDO_REDO` (macros.hpp, not among the sources
here) composes closures so that an accumulated undo runs the newest
inverse first and an accumulated redo runs the oldest forward action
first; the composed closure is the corresponding operation list. -/
def runFun : List PrimOp → MarkerListModel → Option MarkerListModel
  | [], st => some st
  | op :: rest, st =>
    match runOp op st with
    | some st1 => runFun rest st1
    | none => none

/-- Modelled from the spec: `KdenliveSettings::default_marker_type()`
(kdenlivesettings is not among the sources here) is the configured
member of the 0..8 type palette; its shipped default is the first one. -/
def defaultMarkerType : Int := 0

/-- `MarkerListModel::markerTypes.size()`: the palette has 9 types. -/
def markerTypesCount : Int := 9

/-- The five undo-transaction labels pushed by the model, guide flavor
first (`i18n` is the identity here). -/
def addLabel (guide : Bool) : String := if guide then "Add guide" else "Add marker"

def renameLabel (guide : Bool) : String := if guide then "Rename guide" else "Rename marker"

def deleteLabel (guide : Bool) : String := if guide then "Delete guide" else "Delete marker"

def editLabel (guide : Bool) : String := if guide then "Edit guide" else "Edit marker"

def importLabel (guide : Bool) : String := if guide then "Import guides" else "Import markers"

def deleteAllLabel (guide : Bool) : String :=
  if guide then "Delete all guides" else "Delete all markers"

/-- `MarkerListModel::addMarker(GenTime, const QString&, int, Fun&, Fun&)`
(the primitive overload, lines 99-122): resolves the default type,
asserts it is in the palette, then either renames in place (slot
occupied) or creates a marker, updating the accumulated undo/redo
closures.  Returns the C++ return value, the mutated model and the two
updated closures; `none` models a failed `Q_ASSERT`. -/
def MarkerListModel.addMarkerUR (st : MarkerListModel) (pos : Int) (comment : String)
    (mtype : Int) (undo redo : List PrimOp) :
    Option (Bool × MarkerListModel × List PrimOp × List PrimOp) :=
  let t := if mtype = -1 then defaultMarkerType else mtype
  if ¬(0 ≤ t ∧ t < markerTypesCount) then none
  else
    let lr :=
      if st.hasMarker pos then
        ([PrimOp.chg pos comment t],
         [PrimOp.chg pos (st.marker pos).comment (st.marker pos).markerType])
      else
        ([PrimOp.add pos comment t], [PrimOp.del pos])
    match runFun lr.1 st with
    | some st1 => some (true, st1, lr.2 ++ undo, redo ++ lr.1)
    | none => none

/-- `MarkerListModel::removeMarker(GenTime, Fun&, Fun&)` (lines 168-182):
returns false untouched when no marker exists at `pos`, otherwise deletes
it and extends the closures. -/
def MarkerListModel.removeMarkerUR (st : MarkerListModel) (pos : Int)
    (undo redo : List PrimOp) :
    Option (Bool × MarkerListModel × List PrimOp × List PrimOp) :=
  if st.hasMarker pos = false then some (false, st, undo, redo)
  else
    let lundo := [PrimOp.add pos (st.marker pos).comment (st.marker pos).markerType]
    let lredo := [PrimOp.del pos]
    match runFun lredo st with
    | some st1 => some (true, st1, lundo ++ undo, redo ++ lredo)
    | none => none

/-- `MarkerListModel::addMarker(GenTime, const QString&, int)` (the
public overload, lines 150-166): performs the primitive add and pushes a
"Rename …" or "Add …" transaction on success.  The returned string list
holds the labels pushed on the undo stack (`PUSH_UNDO`; modelled from
the spec: DocUndoStack is not among the sources here, only the pushed
transaction label is observable). -/
def MarkerListModel.addMarker (st : MarkerListModel) (pos : Int) (comment : String)
    (mtype : Int) : Option (Bool × MarkerListModel × List String) :=
  let rename := st.hasMarker pos
  match st.addMarkerUR pos comment mtype [] [] with
  | none => none
  | some (res, st1, _, _) =>
    if res then
      some (true, st1, [if rename then renameLabel st.guide else addLabel st.guide])
    else some (false, st1, [])

/-- `MarkerListModel::removeMarker(GenTime)` (lines 184-195): removes and
pushes a "Delete …" transaction on success. -/
def MarkerListModel.removeMarker (st : MarkerListModel) (pos : Int) :
    Option (Bool × MarkerListModel × List String) :=
  match st.removeMarkerUR pos [] [] with
  | none => none
  | some (res, st1, undo, _) =>
    if res then some (true, st1, [deleteLabel st.guide])
    else
      match runFun undo st1 with
      | some _ => some (false, st1, [])
      | none => none

/-- `MarkerListModel::editMarker(GenTime, GenTime, QString, int)`
(lines 197-222): resolves empty-comment / type `-1` defaults from the
existing marker, returns true immediately when nothing changes,
otherwise removes at `oldPos` and re-adds at `pos`, rolling the partial
steps back with the accumulated undo closure if a step fails. -/
def MarkerListModel.editMarker (st : MarkerListModel) (oldPos pos : Int)
    (comment0 : String) (mtype0 : Int) : Option (Bool × MarkerListModel × List String) :=
  if st.hasMarker oldPos = false then none
  else
    let cur := st.marker oldPos
    let comment := if comment0 = "" then cur.comment else comment0
    let t := if mtype0 = -1 then cur.markerType else mtype0
    if oldPos = pos ∧ cur.comment = comment ∧ cur.markerType = t then some (true, st, [])
    else
      match st.removeMarkerUR oldPos [] [] with
      | none => none
      | some (res, st1, undo1, redo1) =>
        if res then
          match st1.addMarkerUR pos comment t undo1 redo1 with
          | none => none
          | some (res2, st2, undo2, _) =>
            if res2 then some (true, st2, [editLabel st.guide])
            else
              match runFun undo2 st2 with
              | some st3 => some (false, st3, [])
              | none => none
        else
          match runFun undo1 st1 with
          | some st3 => some (false, st3, [])
          | none => none

/-- `MarkerListModel::moveMarker(int mid, GenTime pos)` (lines 245-260):
asserts the id exists, aborts returning false when the target frame is
occupied, otherwise retimes the marker and rewrites the position index. -/
def MarkerListModel.moveMarker (st : MarkerListModel) (mid : Int) (pos : Int) :
    Option (Bool × MarkerListModel) :=
  match mapLookup mid st.markerList with
  | none => none
  | some old =>
    if st.hasMarker pos then some (false, st)
    else
      some (true,
        { st with
          markerList := mapInsert mid ⟨pos, old.comment, old.markerType⟩ st.markerList
          markerPositions := mapInsert pos mid (mapRemove old.time st.markerPositions) })

/-- One parsed JSON object of the marker schema, after
`QJsonDocument::fromJson`: each field is `none` when the key is absent
(so the `toInt`/`toString` defaults apply). -/
structure JRecord where
  pos : Option Int
  comment : Option String
  mtype : Option Int
deriving DecidableEq, Repr

/-- The import input: `none` stands for a JSON document that is not an
array; an array entry that is `none` stands for a non-object entry. -/
abbrev JsonData := Option (List (Option JRecord))

/-- The type sanitation performed by `importFromJson`: a type outside the
palette 0..8 is replaced by 0. -/
def resolveType (t : Int) : Int :=
  if t < 0 ∨ markerTypesCount ≤ t then 0 else t

/-- The loop body of `MarkerListModel::importFromJson` (lines 592-622)
over the parsed array: skips non-objects and records without `pos`,
applies the comment/type defaults, checks for conflicts when
`ignoreConflicts` is false, and on failure runs the accumulated undo
closure and returns false. -/
def MarkerListModel.importLoop (st : MarkerListModel) (l : List (Option JRecord))
    (ignoreConflicts : Bool) (undo redo : List PrimOp) :
    Option (Bool × MarkerListModel × List PrimOp × List PrimOp) :=
  match l with
  | [] => some (true, st, undo, redo)
  | entry :: rest =>
    match entry with
    | none => st.importLoop rest ignoreConflicts undo redo
    | some r =>
      match r.pos with
      | none => st.importLoop rest ignoreConflicts undo redo
      | some pos =>
        let comment := r.comment.getD "Marker"
        let t := resolveType (r.mtype.getD 0)
        let res : Bool :=
          if ignoreConflicts = false ∧ st.hasMarker pos = true then
            ((st.marker pos).comment == comment) && (t == (st.marker pos).markerType)
          else true
        if res then
          match st.addMarkerUR pos comment t undo redo with
          | none => none
          | some (res2, st2, undo2, redo2) =>
            if res2 then st2.importLoop rest ignoreConflicts undo2 redo2
            else
              match runFun undo2 st2 with
              | some st3 => some (false, st3, undo2, redo2)
              | none => none
        else
          match runFun undo st with
          | some st3 => some (false, st3, undo, redo)
          | none => none

/-- `MarkerListModel::importFromJson(const QString&, bool, Fun&, Fun&)`
(lines 583-625). -/
def MarkerListModel.importFromJsonUR (st : MarkerListModel) (data : JsonData)
    (ignoreConflicts : Bool) (undo redo : List PrimOp) :
    Option (Bool × MarkerListModel × List PrimOp × List PrimOp) :=
  match data with
  | none => some (false, st, undo, redo)
  | some l => st.importLoop l ignoreConflicts undo redo

/-- `MarkerListModel::importFromJson(const QString&, bool, bool)`
(lines 572-581): runs the core import and, when `pushUndo` is set,
pushes an "Import …" transaction (even when the import failed, as the
source does). -/
def MarkerListModel.importFromJson (st : MarkerListModel) (data : JsonData)
    (ignoreConflicts pushUndo : Bool) : Option (Bool × MarkerListModel × List String) :=
  match st.importFromJsonUR data ignoreConflicts [] [] with
  | none => none
  | some (res, st1, _, _) =>
    some (res, st1, if pushUndo then [importLabel st.guide] else [])

/-- `MarkerListModel::toJson()` (lines 627-640): serializes every marker
as `{pos, comment, type}` in the iteration order of `m_markerList`. -/
def MarkerListModel.toJson (st : MarkerListModel) : List (Option JRecord) :=
  st.markerList.map (fun ic => some ⟨some ic.2.time, some ic.2.comment, some ic.2.markerType⟩)

/-- Loop of `MarkerListModel::removeAllMarkers` (lines 642-662) over the
collected positions: removes each, rolling back with the accumulated
undo closure if a removal fails. -/
def MarkerListModel.removeAllLoop (st : MarkerListModel) (l : List Int)
    (undo redo : List PrimOp) :
    Option (Bool × MarkerListModel × List PrimOp × List PrimOp) :=
  match l with
  | [] => some (true, st, undo, redo)
  | p :: rest =>
    match st.removeMarkerUR p undo redo with
    | none => none
    | some (res, st1, undo1, redo1) =>
      if res then st1.removeAllLoop rest undo1 redo1
      else
        match runFun undo1 st1 with
        | some st2 => some (false, st2, undo1, redo1)
        | none => none

/-- `MarkerListModel::removeAllMarkers()`: collects every marker time in
`m_markerList` order, removes them all, and pushes a "Delete all …"
transaction on success. -/
def MarkerListModel.removeAllMarkers (st : MarkerListModel) :
    Option (Bool × MarkerListModel × List String) :=
  match st.removeAllLoop (st.markerList.map (fun ic => ic.2.time)) [] [] with
  | none => none
  | some (res, st1, _, _) =>
    if res then some (true, st1, [deleteAllLabel st.guide])
    else some (false, st1, [])

/-- The observable content of a marker list: the id-keyed marker storage
and the position index (the two structures the spec's consistency
invariant speaks about). -/
def MarkerListModel.observable (st : MarkerListModel) :
    List (Int × CommentedTime) × List (Int × Int) :=
  (st.markerList, st.markerPositions)

/-- The model's consistency invariant (spec sections 3 and 4.2): both
maps are key-sorted; every position-index entry points to a stored
marker at exactly that frame; every stored marker is indexed at its
frame; and every stored id was minted by the global counter (so fresh
ids never collide). -/
def MarkerListModel.Inv (st : MarkerListModel) : Prop :=
  keysSorted st.markerList = true ∧
  keysSorted st.markerPositions = true ∧
  (∀ pi ∈ st.markerPositions, (mapLookup pi.2 st.markerList).map CommentedTime.time = some pi.1) ∧
  (∀ ic ∈ st.markerList, mapLookup ic.2.time st.markerPositions = some ic.1) ∧
  (∀ ic ∈ st.markerList, ic.1 ≤ st.nextId)

instance (st : MarkerListModel) : Decidable st.Inv := by
  unfold MarkerListModel.Inv; infer_instance

/-- Every stored marker type lies in the palette 0..8 (enforced by the
`Q_ASSERT` in `addMarker` and the import sanitation). -/
def MarkerListModel.typesValid (st : MarkerListModel) : Prop :=
  ∀ ic ∈ st.markerList, 0 ≤ ic.2.markerType ∧ ic.2.markerType < markerTypesCount

instance (st : MarkerListModel) : Decidable st.typesValid := by
  unfold MarkerListModel.typesValid; infer_instance

/-- A timeline item as far as identity is concerned
(`MoveableItem<Service>`, moveableItem.ipp lines 22-29): `m_id`,
`m_position` and `m_currentTrackId`. -/
structure MoveableItem where
  id : Int
  position : Int
  currentTrackId : Int
deriving DecidableEq, Repr

/-- `MoveableItem<Service>::MoveableItem(weak_ptr, int id)`:
`m_id(id == -1 ? TimelineModel::getNextId() : id)`, position and track
initialised to the `-1` sentinels.  Takes and returns the global id
counter. -/
def MoveableItem.construct (counter : Int) (id : Int) : MoveableItem × Int :=
  if id = -1 then
    let r := TimelineModel.getNextId counter
    (⟨r.1, -1, -1⟩, r.2)
  else (⟨id, -1, -1⟩, counter)

/-- `MoveableItem<Service>::getId()`. -/
def MoveableItem.getId (it : MoveableItem) : Int := it.id

/-! ### Association-map lemmas -/

theorem mapLookup_mem {α : Type} {k : Int} {v : α} :
    ∀ {m : List (Int × α)}, mapLookup k m = some v → (k, v) ∈ m := by
  intro m
  induction m with
  | nil => intro h; simp [mapLookup] at h
  | cons a rest ih =>
    intro h
    rw [mapLookup] at h
    by_cases hk : k = a.1
    · simp only [hk, if_pos rfl] at h
      cases h
      rw [hk, Prod.mk.eta]
      exact List.mem_cons_self a rest
    · simp only [if_neg hk] at h
      exact List.mem_cons_of_mem a (ih h)

theorem keysSorted_cons {α : Type} (a : Int × α) (m : List (Int × α)) :
    keysSorted (a :: m) = true ↔ (keysSorted m = true ∧ ∀ x ∈ m, a.1 < x.1) := by
  induction m generalizing a with
  | nil => simp [keysSorted]
  | cons b rest ih =>
    show (decide (a.1 < b.1) && keysSorted (b :: rest)) = true ↔ _
    simp only [Bool.and_eq_true, decide_eq_true_eq]
    constructor
    · rintro ⟨hab, hs⟩
      refine ⟨hs, ?_⟩
      intro x hx
      rcases List.mem_cons.mp hx with rfl | hx
      · exact hab
      · exact hab.trans (((ih b).mp hs).2 x hx)
    · rintro ⟨hs, hall⟩
      exact ⟨hall b (List.mem_cons_self b rest), hs⟩

theorem mem_mapLookup {α : Type} {k : Int} {v : α} :
    ∀ {m : List (Int × α)}, keysSorted m = true → (k, v) ∈ m → mapLookup k m = some v := by
  intro m
  induction m with
  | nil => intro _ h; cases h
  | cons a rest ih =>
    intro hs h
    rcases List.mem_cons.mp h with h1 | h1
    · rw [mapLookup, ← h1]
      simp
    · have hlt : a.1 < k := ((keysSorted_cons a rest).mp hs).2 (k, v) h1
      rw [mapLookup, if_neg (by omega)]
      exact ih ((keysSorted_cons a rest).mp hs).1 h1

theorem mapLookup_none {α : Type} {k : Int} :
    ∀ {m : List (Int × α)}, (∀ x ∈ m, k ≠ x.1) → mapLookup k m = none := by
  intro m
  induction m with
  | nil => intro _; rfl
  | cons a rest ih =>
    intro h
    rw [mapLookup, if_neg (h a (List.mem_cons_self a rest))]
    exact ih (fun x hx => h x (List.mem_cons_of_mem a hx))

theorem mapLookup_mapInsert_self {α : Type} (k : Int) (v : α) :
    ∀ (m : List (Int × α)), mapLookup k (mapInsert k v m) = some v := by
  intro m
  induction m with
  | nil => simp [mapInsert, mapLookup]
  | cons a rest ih =>
    rw [mapInsert]
    by_cases h1 : k < a.1
    · rw [if_pos h1, mapLookup, if_pos rfl]
    · rw [if_neg h1]
      by_cases h2 : k = a.1
      · rw [if_pos h2, mapLookup, if_pos rfl]
      · rw [if_neg h2, mapLookup, if_neg h2]
        exact ih

theorem mapLookup_mapInsert_ne {α : Type} {k j : Int} (v : α) (h : k ≠ j) :
    ∀ (m : List (Int × α)), mapLookup k (mapInsert j v m) = mapLookup k m := by
  intro m
  induction m with
  | nil => simp [mapInsert, mapLookup, h]
  | cons a rest ih =>
    rw [mapInsert]
    by_cases h1 : j < a.1
    · rw [if_pos h1, mapLookup, if_neg h, mapLookup]
    · rw [if_neg h1]
      by_cases h2 : j = a.1
      · rw [if_pos h2, mapLookup, if_neg h, mapLookup, if_neg (h2 ▸ h)]
      · rw [if_neg h2, mapLookup, mapLookup]
        by_cases h3 : k = a.1
        · rw [if_pos h3, if_pos h3]
        · rw [if_neg h3, if_neg h3]
          exact ih

theorem mem_mapInsert {α : Type} {k : Int} {v : α} {x : Int × α} :
    ∀ {m : List (Int × α)}, x ∈ mapInsert k v m → x = (k, v) ∨ x ∈ m := by
  intro m
  induction m with
  | nil => intro h; simp [mapInsert] at h; exact Or.inl h
  | cons a rest ih =>
    intro h
    rw [mapInsert] at h
    by_cases h1 : k < a.1
    · rw [if_pos h1] at h
      rcases List.mem_cons.mp h with h2 | h2
      · exact Or.inl h2
      · exact Or.inr h2
    · rw [if_neg h1] at h
      by_cases h2 : k = a.1
      · rw [if_pos h2] at h
        rcases List.mem_cons.mp h with h3 | h3
        · exact Or.inl h3
        · exact Or.inr (List.mem_cons_of_mem a h3)
      · rw [if_neg h2] at h
        rcases List.mem_cons.mp h with h3 | h3
        · exact Or.inr (h3 ▸ List.mem_cons_self a rest)
        · rcases ih h3 with h4 | h4
          · exact Or.inl h4
          · exact Or.inr (List.mem_cons_of_mem a h4)

theorem mem_mapRemove {α : Type} {k : Int} {x : Int × α} :
    ∀ {m : List (Int × α)}, x ∈ mapRemove k m → x ∈ m := by
  intro m
  induction m with
  | nil => intro h; cases h
  | cons a rest ih =>
    intro h
    rw [mapRemove] at h
    by_cases h1 : k = a.1
    · rw [if_pos h1] at h
      exact List.mem_cons_of_mem a h
    · rw [if_neg h1] at h
      rcases List.mem_cons.mp h with h2 | h2
      · exact h2 ▸ List.mem_cons_self a rest
      · exact List.mem_cons_of_mem a (ih h2)

theorem keysSorted_mapInsert {α : Type} (k : Int) (v : α) :
    ∀ {m : List (Int × α)}, keysSorted m = true → keysSorted (mapInsert k v m) = true := by
  intro m
  induction m with
  | nil => intro _; rfl
  | cons a rest ih =>
    intro hs
    have hs1 := (keysSorted_cons a rest).mp hs
    rw [mapInsert]
    by_cases h1 : k < a.1
    · rw [if_pos h1]
      refine (keysSorted_cons _ _).mpr ⟨hs, ?_⟩
      intro x hx
      rcases List.mem_cons.mp hx with rfl | hx
      · exact h1
      · exact h1.trans (hs1.2 x hx)
    · rw [if_neg h1]
      by_cases h2 : k = a.1
      · rw [if_pos h2]
        refine (keysSorted_cons _ _).mpr ⟨hs1.1, ?_⟩
        intro x hx
        exact h2 ▸ hs1.2 x hx
      · rw [if_neg h2]
        refine (keysSorted_cons _ _).mpr ⟨ih hs1.1, ?_⟩
        intro x hx
        rcases mem_mapInsert hx with rfl | hx
        · omega
        · exact hs1.2 x hx

theorem keysSorted_mapRemove {α : Type} (k : Int) :
    ∀ {m : List (Int × α)}, keysSorted m = true → keysSorted (mapRemove k m) = true := by
  intro m
  induction m with
  | nil => intro _; rfl
  | cons a rest ih =>
    intro hs
    have hs1 := (keysSorted_cons a rest).mp hs
    rw [mapRemove]
    by_cases h1 : k = a.1
    · rw [if_pos h1]; exact hs1.1
    · rw [if_neg h1]
      refine (keysSorted_cons _ _).mpr ⟨ih hs1.1, ?_⟩
      intro x hx
      exact hs1.2 x (mem_mapRemove hx)

theorem mapRemove_mapInsert_cancel {α : Type} {k : Int} (v : α) :
    ∀ {m : List (Int × α)}, mapLookup k m = none → mapRemove k (mapInsert k v m) = m := by
  intro m
  induction m with
  | nil => intro _; simp [mapInsert, mapRemove]
  | cons a rest ih =>
    intro h
    rw [mapLookup] at h
    by_cases h1 : k = a.1
    · rw [if_pos h1] at h; cases h
    · rw [if_neg h1] at h
      rw [mapInsert]
      by_cases h2 : k < a.1
      · rw [if_pos h2, mapRemove, if_pos rfl]
      · rw [if_neg h2, if_neg h1, mapRemove, if_neg h1, ih h]

theorem mapLookup_mapRemove_self {α : Type} {k : Int} :
    ∀ {m : List (Int × α)}, keysSorted m = true → mapLookup k (mapRemove k m) = none := by
  intro m
  induction m with
  | nil => intro _; rfl
  | cons a rest ih =>
    intro hs
    have hs1 := (keysSorted_cons a rest).mp hs
    rw [mapRemove]
    by_cases h1 : k = a.1
    · rw [if_pos h1]
      refine mapLookup_none ?_
      intro x hx
      have := hs1.2 x hx
      omega
    · rw [if_neg h1, mapLookup, if_neg h1]
      exact ih hs1.1

theorem mapLookup_mapRemove_ne {α : Type} {k j : Int} (h : k ≠ j) :
    ∀ (m : List (Int × α)), mapLookup k (mapRemove j m) = mapLookup k m := by
  intro m
  induction m with
  | nil => rfl
  | cons a rest ih =>
    rw [mapRemove]
    by_cases h1 : j = a.1
    · rw [if_pos h1, mapLookup, if_neg (h1 ▸ h)]
    · rw [if_neg h1, mapLookup, mapLookup]
      by_cases h2 : k = a.1
      · rw [if_pos h2, if_pos h2]
      · rw [if_neg h2, if_neg h2]
        exact ih

theorem mapInsert_mapInsert_same {α : Type} (k : Int) (v w : α) :
    ∀ (m : List (Int × α)), mapInsert k v (mapInsert k w m) = mapInsert k v m := by
  intro m
  induction m with
  | nil => simp [mapInsert]
  | cons a rest ih =>
    rw [mapInsert]
    by_cases h1 : k < a.1
    · rw [if_pos h1, mapInsert, if_neg (lt_irrefl k), if_pos rfl, mapInsert, if_pos h1]
    · rw [if_neg h1]
      by_cases h2 : k = a.1
      · rw [if_pos h2, mapInsert, if_neg (lt_irrefl k), if_pos rfl, mapInsert, if_neg h1,
          if_pos h2]
      · rw [if_neg h2, mapInsert, if_neg h1, if_neg h2, mapInsert, if_neg h1, if_neg h2, ih]

theorem mapInsert_self_of_lookup {α : Type} {k : Int} {v : α} :
    ∀ {m : List (Int × α)}, keysSorted m = true → mapLookup k m = some v →
      mapInsert k v m = m := by
  intro m
  induction m with
  | nil => intro _ h; cases h
  | cons a rest ih =>
    intro hs h
    have hs1 := (keysSorted_cons a rest).mp hs
    rw [mapLookup] at h
    by_cases h1 : k = a.1
    · rw [if_pos h1] at h
      cases h
      rw [mapInsert, if_neg (by omega), if_pos h1, h1]
    · rw [if_neg h1] at h
      have hmem := mapLookup_mem h
      have hlt : a.1 < k := hs1.2 (k, v) hmem
      rw [mapInsert, if_neg (by omega), if_neg h1, ih hs1.1 h]

theorem mapInsert_append_of_gt {α : Type} {k : Int} (v : α) :
    ∀ {m : List (Int × α)}, (∀ x ∈ m, x.1 < k) → mapInsert k v m = m ++ [(k, v)] := by
  intro m
  induction m with
  | nil => intro _; rfl
  | cons a rest ih =>
    intro h
    have ha := h a (List.mem_cons_self a rest)
    rw [mapInsert, if_neg (by omega), if_neg (by omega), List.cons_append,
      ih (fun x hx => h x (List.mem_cons_of_mem a hx))]

theorem mem_mapRemove_ne {α : Type} {k : Int} {x : Int × α} :
    ∀ {m : List (Int × α)}, keysSorted m = true → x ∈ mapRemove k m → x ∈ m ∧ x.1 ≠ k := by
  intro m
  induction m with
  | nil => intro _ h; cases h
  | cons a rest ih =>
    intro hs h
    have hs1 := (keysSorted_cons a rest).mp hs
    rw [mapRemove] at h
    by_cases h1 : k = a.1
    · rw [if_pos h1] at h
      have := hs1.2 x h
      exact ⟨List.mem_cons_of_mem a h, by omega⟩
    · rw [if_neg h1] at h
      rcases List.mem_cons.mp h with h2 | h2
      · refine ⟨List.mem_cons.mpr (Or.inl h2), ?_⟩
        rw [h2]
        exact fun hc => h1 hc.symm
      · obtain ⟨hm, hne⟩ := ih hs1.1 h2
        exact ⟨List.mem_cons_of_mem a hm, hne⟩

/-! ### Model-level helper lemmas -/

theorem hasMarker_eq_false_iff {st : MarkerListModel} {p : Int} :
    st.hasMarker p = false ↔ mapLookup p st.markerPositions = none := by
  unfold MarkerListModel.hasMarker
  cases mapLookup p st.markerPositions <;> simp

theorem hasMarker_eq_true_iff {st : MarkerListModel} {p : Int} :
    st.hasMarker p = true ↔ ∃ mid, mapLookup p st.markerPositions = some mid := by
  unfold MarkerListModel.hasMarker
  cases mapLookup p st.markerPositions <;> simp

/-- Under the invariant a present marker is exactly the stored entry the
position index points at. -/
theorem marker_spec {st : MarkerListModel} {pos : Int} (hInv : st.Inv)
    (h : st.hasMarker pos = true) :
    ∃ mid ct, mapLookup pos st.markerPositions = some mid ∧
      mapLookup mid st.markerList = some ct ∧ ct.time = pos ∧
      st.marker pos = ct ∧ mid ≤ st.nextId := by
  obtain ⟨_, _, h3, _, h5⟩ := hInv
  obtain ⟨mid, hmid⟩ := hasMarker_eq_true_iff.mp h
  have h3p := h3 (pos, mid) (mapLookup_mem hmid)
  obtain ⟨ct, hct, htime⟩ := Option.map_eq_some'.mp h3p
  have hct2 : mapLookup mid st.markerList = some ct := hct
  have htime2 : ct.time = pos := htime
  refine ⟨mid, ct, hmid, hct2, htime2, ?_, h5 (mid, ct) (mapLookup_mem hct2)⟩
  simp only [MarkerListModel.marker, hmid, hct2]

theorem marker_applyAdd_self (st : MarkerListModel) (pos : Int) (c : String) (t : Int) :
    (st.applyAdd pos c t).marker pos = ⟨pos, c, t⟩ := by
  simp only [MarkerListModel.marker, MarkerListModel.applyAdd, TimelineModel.getNextId,
    mapLookup_mapInsert_self]

theorem hasMarker_applyAdd_self (st : MarkerListModel) (pos : Int) (c : String) (t : Int) :
    (st.applyAdd pos c t).hasMarker pos = true := by
  simp only [MarkerListModel.hasMarker, MarkerListModel.applyAdd, TimelineModel.getNextId,
    mapLookup_mapInsert_self, Option.isSome_some]

theorem hasMarker_applyAdd_ne {q pos : Int} (st : MarkerListModel) (c : String) (t : Int)
    (h : q ≠ pos) : (st.applyAdd pos c t).hasMarker q = st.hasMarker q := by
  simp only [MarkerListModel.hasMarker, MarkerListModel.applyAdd, TimelineModel.getNextId,
    mapLookup_mapInsert_ne _ h]

theorem marker_applyAdd_ne {st : MarkerListModel} {q pos : Int} {c : String} {t : Int}
    (hInv : st.Inv) (h : q ≠ pos) (hq : st.hasMarker q = true) :
    (st.applyAdd pos c t).marker q = st.marker q := by
  obtain ⟨mid, ct, hmid, hct, _, hmq, hle⟩ := marker_spec hInv hq
  have hne : mid ≠ st.nextId + 1 := by omega
  simp only [MarkerListModel.marker, MarkerListModel.applyAdd, TimelineModel.getNextId,
    mapLookup_mapInsert_ne _ h, hmid, mapLookup_mapInsert_ne _ hne, hct]

/-- Rollback exactness for a fresh add: running `deleteMarker_lambda` at
`pos` right after `addMarker_lambda` restores the observable state. -/
theorem runOp_del_applyAdd {st : MarkerListModel} {pos : Int} (c : String) (t : Int)
    (hInv : st.Inv) (h : st.hasMarker pos = false) :
    ∃ st2, runOp (.del pos) (st.applyAdd pos c t) = some st2 ∧
      st2.observable = st.observable := by
  obtain ⟨_, _, _, _, h5⟩ := hInv
  refine ⟨(st.applyAdd pos c t).applyDel pos, ?_, ?_⟩
  · rw [runOp, if_pos (hasMarker_applyAdd_self st pos c t)]
  · unfold MarkerListModel.applyDel MarkerListModel.getIdFromPos MarkerListModel.applyAdd
      TimelineModel.getNextId MarkerListModel.observable
    simp only
    rw [mapLookup_mapInsert_self]
    have hml : mapLookup (st.nextId + 1) st.markerList = none := by
      refine mapLookup_none ?_
      intro x hx
      have := h5 x hx
      omega
    rw [mapRemove_mapInsert_cancel _ hml,
      mapRemove_mapInsert_cancel _ (hasMarker_eq_false_iff.mp h)]

/-- Rollback exactness for a rename: running `changeComment_lambda` with
the saved comment and type right after a `changeComment_lambda` restores
the observable state. -/
theorem runOp_chg_applyChg {st : MarkerListModel} {pos : Int} (c : String) (t : Int)
    (hInv : st.Inv) (h : st.hasMarker pos = true) :
    ∃ st2, runOp (.chg pos (st.marker pos).comment (st.marker pos).markerType)
        (st.applyChg pos c t) = some st2 ∧
      st2.observable = st.observable := by
  obtain ⟨mid, ct, hmid, hct, htime, hmq, _⟩ := marker_spec hInv h
  have hs1 := hInv.1
  have hpos1 : (st.applyChg pos c t).markerPositions = st.markerPositions := rfl
  have hhm1 : (st.applyChg pos c t).hasMarker pos = true := by
    unfold MarkerListModel.hasMarker
    rw [hpos1]
    exact h
  have key : ((st.applyChg pos c t).applyChg pos (st.marker pos).comment
      (st.marker pos).markerType).observable = st.observable := by
    rw [hmq]
    simp only [MarkerListModel.applyChg, MarkerListModel.getIdFromPos,
      MarkerListModel.observable, hmid, hct, mapLookup_mapInsert_self,
      mapInsert_mapInsert_same]
    rw [show (⟨ct.time, ct.comment, ct.markerType⟩ : CommentedTime) = ct from rfl,
      mapInsert_self_of_lookup hs1 hct]
  exact ⟨_, by rw [runOp, if_pos hhm1], key⟩

/-- A rename to the values already stored is the identity on the state. -/
theorem applyChg_identity {st : MarkerListModel} {pos : Int} {c : String} {t : Int}
    (hInv : st.Inv) (h : st.hasMarker pos = true)
    (hc : c = (st.marker pos).comment) (ht : t = (st.marker pos).markerType) :
    st.applyChg pos c t = st := by
  obtain ⟨mid, ct, hmid, hct, _, hmq, _⟩ := marker_spec hInv h
  rw [hc, ht, hmq]
  simp only [MarkerListModel.applyChg, MarkerListModel.getIdFromPos, hmid, hct]
  rw [show (⟨ct.time, ct.comment, ct.markerType⟩ : CommentedTime) = ct from rfl,
    mapInsert_self_of_lookup hInv.1 hct]

theorem mem_mapInsert_ne {α : Type} {k : Int} {v : α} {x : Int × α} :
    ∀ {m : List (Int × α)}, keysSorted m = true → x ∈ mapInsert k v m →
      x = (k, v) ∨ (x ∈ m ∧ x.1 ≠ k) := by
  intro m
  induction m with
  | nil =>
    intro _ h
    simp [mapInsert] at h
    exact Or.inl h
  | cons a rest ih =>
    intro hs h
    have hs1 := (keysSorted_cons a rest).mp hs
    rw [mapInsert] at h
    by_cases h1 : k < a.1
    · rw [if_pos h1] at h
      rcases List.mem_cons.mp h with h2 | h2
      · exact Or.inl h2
      · right
        refine ⟨h2, ?_⟩
        rcases List.mem_cons.mp h2 with h3 | h3
        · rw [h3]; omega
        · have := hs1.2 x h3; omega
    · rw [if_neg h1] at h
      by_cases h2 : k = a.1
      · rw [if_pos h2] at h
        rcases List.mem_cons.mp h with h3 | h3
        · exact Or.inl h3
        · have := hs1.2 x h3
          exact Or.inr ⟨List.mem_cons_of_mem a h3, by omega⟩
      · rw [if_neg h2] at h
        rcases List.mem_cons.mp h with h3 | h3
        · right
          refine ⟨List.mem_cons.mpr (Or.inl h3), ?_⟩
          rw [h3]
          omega
        · rcases ih hs1.1 h3 with h4 | ⟨h4, h5⟩
          · exact Or.inl h4
          · exact Or.inr ⟨List.mem_cons_of_mem a h4, h5⟩

/-! ### Invariant preservation -/

theorem Inv_applyAdd {st : MarkerListModel} {pos : Int} (c : String) (t : Int)
    (hInv : st.Inv) (h : st.hasMarker pos = false) : (st.applyAdd pos c t).Inv := by
  obtain ⟨h1, h2, h3, h4, h5⟩ := hInv
  have hpnone := hasMarker_eq_false_iff.mp h
  simp only [MarkerListModel.Inv, MarkerListModel.applyAdd, TimelineModel.getNextId]
  refine ⟨keysSorted_mapInsert _ _ h1, keysSorted_mapInsert _ _ h2, ?_, ?_, ?_⟩
  · intro pi hpi
    rcases mem_mapInsert hpi with heq | hpi2
    · rw [heq]
      have hx : (mapLookup (st.nextId + 1)
          (mapInsert (st.nextId + 1) (⟨pos, c, t⟩ : CommentedTime) st.markerList)).map
            CommentedTime.time = some pos := by
        rw [mapLookup_mapInsert_self]
        rfl
      exact hx
    · have h3p := h3 pi hpi2
      obtain ⟨ct, hct, htime⟩ := Option.map_eq_some'.mp h3p
      have hle : pi.2 ≤ st.nextId := h5 (pi.2, ct) (mapLookup_mem hct)
      rw [mapLookup_mapInsert_ne _ (by omega), h3p]
  · intro ic hic
    rcases mem_mapInsert hic with heq | hic2
    · rw [heq]
      have hx : mapLookup (⟨pos, c, t⟩ : CommentedTime).time
          (mapInsert pos (st.nextId + 1) st.markerPositions) = some (st.nextId + 1) :=
        mapLookup_mapInsert_self pos (st.nextId + 1) st.markerPositions
      exact hx
    · have h4p := h4 ic hic2
      have hne : ic.2.time ≠ pos := by
        intro hcontra
        rw [hcontra, hpnone] at h4p
        cases h4p
      rw [mapLookup_mapInsert_ne _ hne, h4p]
  · intro ic hic
    rcases mem_mapInsert hic with heq | hic2
    · rw [heq]
    · have := h5 ic hic2
      omega

theorem Inv_applyDel {st : MarkerListModel} {pos : Int}
    (hInv : st.Inv) (h : st.hasMarker pos = true) : (st.applyDel pos).Inv := by
  obtain ⟨mid, ct, hmid, hct, htime, _, _⟩ := marker_spec hInv h
  obtain ⟨h1, h2, h3, h4, h5⟩ := hInv
  have hgid : st.getIdFromPos pos = mid := by
    simp only [MarkerListModel.getIdFromPos, hmid]
  simp only [MarkerListModel.Inv, MarkerListModel.applyDel, hgid]
  refine ⟨keysSorted_mapRemove _ h1, keysSorted_mapRemove _ h2, ?_, ?_, ?_⟩
  · intro pi hpi
    obtain ⟨hpi2, hpne⟩ := mem_mapRemove_ne h2 hpi
    have h3p := h3 pi hpi2
    have hpine : pi.2 ≠ mid := by
      intro hcontra
      rw [hcontra, hct] at h3p
      have : ct.time = pi.1 := by simpa using h3p
      omega
    rw [mapLookup_mapRemove_ne hpine, h3p]
  · intro ic hic
    obtain ⟨hic2, hicne⟩ := mem_mapRemove_ne h1 hic
    have h4p := h4 ic hic2
    have htne : ic.2.time ≠ pos := by
      intro hcontra
      rw [hcontra, hmid] at h4p
      injection h4p with hh
      exact hicne hh.symm
    rw [mapLookup_mapRemove_ne htne, h4p]
  · intro ic hic
    exact h5 ic (mem_mapRemove hic)

theorem Inv_applyChg {st : MarkerListModel} {pos : Int} (c : String) (t : Int)
    (hInv : st.Inv) (h : st.hasMarker pos = true) : (st.applyChg pos c t).Inv := by
  obtain ⟨mid, ct, hmid, hct, htime, _, hle⟩ := marker_spec hInv h
  obtain ⟨h1, h2, h3, h4, h5⟩ := hInv
  have happly : st.applyChg pos c t =
      { st with markerList := mapInsert mid ⟨ct.time, c, t⟩ st.markerList } := by
    simp only [MarkerListModel.applyChg, MarkerListModel.getIdFromPos, hmid, hct]
  rw [happly]
  refine ⟨keysSorted_mapInsert _ _ h1, h2, ?_, ?_, ?_⟩
  · intro pi hpi
    have h3p := h3 pi hpi
    by_cases hpi2 : pi.2 = mid
    · rw [hpi2, mapLookup_mapInsert_self]
      rw [hpi2, hct] at h3p
      have : ct.time = pi.1 := by simpa using h3p
      rw [← this]
      rfl
    · rw [mapLookup_mapInsert_ne _ hpi2, h3p]
  · intro ic hic
    rcases mem_mapInsert hic with heq | hic2
    · rw [heq]
      exact h4 (mid, ct) (mapLookup_mem hct)
    · exact h4 ic hic2
  · intro ic hic
    rcases mem_mapInsert hic with heq | hic2
    · rw [heq]
      exact hle
    · exact h5 ic hic2

theorem Inv_runOp {st st2 : MarkerListModel} {op : PrimOp}
    (hInv : st.Inv) (h : runOp op st = some st2) : st2.Inv := by
  cases op with
  | add pos c t =>
    rw [runOp] at h
    by_cases hm : st.hasMarker pos = true
    · rw [if_pos hm] at h; cases h
    · rw [if_neg hm] at h
      injection h with h
      rw [← h]
      exact Inv_applyAdd c t hInv (by simpa using hm)
  | del pos =>
    rw [runOp] at h
    by_cases hm : st.hasMarker pos = true
    · rw [if_pos hm] at h
      injection h with h
      rw [← h]
      exact Inv_applyDel hInv hm
    · rw [if_neg hm] at h; cases h
  | chg pos c t =>
    rw [runOp] at h
    by_cases hm : st.hasMarker pos = true
    · rw [if_pos hm] at h
      injection h with h
      rw [← h]
      exact Inv_applyChg c t hInv hm
    · rw [if_neg hm] at h; cases h

theorem Inv_runFun : ∀ {u : List PrimOp} {st st2 : MarkerListModel},
    st.Inv → runFun u st = some st2 → st2.Inv := by
  intro u
  induction u with
  | nil =>
    intro st st2 hInv h
    rw [runFun] at h
    cases h
    exact hInv
  | cons op rest ih =>
    intro st st2 hInv h
    rw [runFun] at h
    cases hop : runOp op st with
    | none => rw [hop] at h; cases h
    | some st1 =>
      rw [hop] at h
      exact ih (Inv_runOp hInv hop) h

/-! ### Characterizations of the primitive API calls -/

theorem runFun_single_chg {st : MarkerListModel} {pos : Int} {c : String} {t : Int}
    (hm : st.hasMarker pos = true) :
    runFun [PrimOp.chg pos c t] st = some (st.applyChg pos c t) := by
  rw [runFun, runOp, if_pos hm]
  rfl

theorem runFun_single_add {st : MarkerListModel} {pos : Int} {c : String} {t : Int}
    (hm : st.hasMarker pos = false) :
    runFun [PrimOp.add pos c t] st = some (st.applyAdd pos c t) := by
  have hmneg : ¬(st.hasMarker pos = true) := by rw [hm]; exact Bool.false_ne_true
  rw [runFun, runOp, if_neg hmneg]
  rfl

theorem runFun_single_del {st : MarkerListModel} {pos : Int}
    (hm : st.hasMarker pos = true) :
    runFun [PrimOp.del pos] st = some (st.applyDel pos) := by
  rw [runFun, runOp, if_pos hm]
  rfl

theorem addMarkerUR_rename {st : MarkerListModel} {pos : Int} {c : String} {t : Int}
    (u r : List PrimOp) (hm : st.hasMarker pos = true)
    (ht : 0 ≤ t ∧ t < markerTypesCount) :
    st.addMarkerUR pos c t u r = some (true, st.applyChg pos c t,
      PrimOp.chg pos (st.marker pos).comment (st.marker pos).markerType :: u,
      r ++ [PrimOp.chg pos c t]) := by
  have ht1 : (if t = -1 then defaultMarkerType else t) = t := by
    rw [if_neg (by omega)]
  simp only [MarkerListModel.addMarkerUR]
  rw [ht1, if_neg (not_not_intro ht), if_pos hm, runFun_single_chg hm]
  rfl

theorem addMarkerUR_fresh {st : MarkerListModel} {pos : Int} {c : String} {t : Int}
    (u r : List PrimOp) (hm : st.hasMarker pos = false)
    (ht : 0 ≤ t ∧ t < markerTypesCount) :
    st.addMarkerUR pos c t u r = some (true, st.applyAdd pos c t,
      PrimOp.del pos :: u, r ++ [PrimOp.add pos c t]) := by
  have ht1 : (if t = -1 then defaultMarkerType else t) = t := by
    rw [if_neg (by omega)]
  have hmneg : ¬(st.hasMarker pos = true) := by rw [hm]; exact Bool.false_ne_true
  simp only [MarkerListModel.addMarkerUR]
  rw [ht1, if_neg (not_not_intro ht), if_neg hmneg, runFun_single_add hm]
  rfl

theorem removeMarkerUR_miss {st : MarkerListModel} {pos : Int} (u r : List PrimOp)
    (hm : st.hasMarker pos = false) :
    st.removeMarkerUR pos u r = some (false, st, u, r) := by
  simp only [MarkerListModel.removeMarkerUR]
  rw [if_pos hm]

theorem removeMarkerUR_hit {st : MarkerListModel} {pos : Int} (u r : List PrimOp)
    (hm : st.hasMarker pos = true) :
    st.removeMarkerUR pos u r = some (true, st.applyDel pos,
      PrimOp.add pos (st.marker pos).comment (st.marker pos).markerType :: u,
      r ++ [PrimOp.del pos]) := by
  have hmneg : ¬(st.hasMarker pos = false) := by
    rw [hm]
    exact fun hc => Bool.noConfusion hc
  simp only [MarkerListModel.removeMarkerUR]
  rw [if_neg hmneg, runFun_single_del hm]
  rfl

/-! ### Determinism of nextId-free closures over the observable state -/

/-- Operations whose effect is determined by the observable state (they
do not mint ids): `del` and `chg`. -/
def PrimOp.nextIdFree : PrimOp → Bool
  | .add _ _ _ => false
  | _ => true

def nextIdFreeOps (u : List PrimOp) : Bool := u.all PrimOp.nextIdFree

theorem runOp_obs_congr {op : PrimOp} {st1 st2 : MarkerListModel}
    (hop : op.nextIdFree = true) (h : st1.observable = st2.observable) :
    (runOp op st1).map MarkerListModel.observable =
      (runOp op st2).map MarkerListModel.observable := by
  have hml : st1.markerList = st2.markerList := congrArg Prod.fst h
  have hmp : st1.markerPositions = st2.markerPositions := congrArg Prod.snd h
  have hhm : ∀ p, st1.hasMarker p = st2.hasMarker p := by
    intro p
    unfold MarkerListModel.hasMarker
    rw [hmp]
  cases op with
  | add p c t => simp [PrimOp.nextIdFree] at hop
  | del p =>
    rw [runOp, runOp, hhm p]
    by_cases hm : st2.hasMarker p = true
    · rw [if_pos hm, if_pos hm]
      have hdel : (st1.applyDel p).observable = (st2.applyDel p).observable := by
        simp only [MarkerListModel.applyDel, MarkerListModel.observable,
          MarkerListModel.getIdFromPos]
        rw [hml, hmp]
      exact congrArg Option.some hdel
    · rw [if_neg hm, if_neg hm]
  | chg p c t =>
    rw [runOp, runOp, hhm p]
    by_cases hm : st2.hasMarker p = true
    · rw [if_pos hm, if_pos hm]
      have hchg : (st1.applyChg p c t).observable = (st2.applyChg p c t).observable := by
        simp only [MarkerListModel.applyChg, MarkerListModel.observable,
          MarkerListModel.getIdFromPos]
        rw [hml, hmp]
      exact congrArg Option.some hchg
    · rw [if_neg hm, if_neg hm]

theorem runFun_obs_congr : ∀ {u : List PrimOp} {st1 st2 : MarkerListModel},
    nextIdFreeOps u = true → st1.observable = st2.observable →
    (runFun u st1).map MarkerListModel.observable =
      (runFun u st2).map MarkerListModel.observable := by
  intro u
  induction u with
  | nil =>
    intro st1 st2 _ h
    exact congrArg Option.some h
  | cons op rest ih =>
    intro st1 st2 hu h
    have hall := List.all_eq_true.mp hu
    have hop : op.nextIdFree = true := hall op (List.mem_cons_self op rest)
    have hrest : nextIdFreeOps rest = true :=
      List.all_eq_true.mpr (fun x hx => hall x (List.mem_cons_of_mem op hx))
    have hstep := runOp_obs_congr hop h
    rw [runFun, runFun]
    cases h1 : runOp op st1 with
    | none =>
      rw [h1] at hstep
      cases h2 : runOp op st2 with
      | none => rfl
      | some s2 =>
        rw [h2] at hstep
        exact Option.noConfusion hstep
    | some s1 =>
      rw [h1] at hstep
      cases h2 : runOp op st2 with
      | none =>
        rw [h2] at hstep
        exact Option.noConfusion hstep
      | some s2 =>
        rw [h2] at hstep
        have hobs : s1.observable = s2.observable := Option.some_injective _ hstep
        exact ih hrest hobs

/-! ### Import analysis -/

/-- A parsed entry that `importFromJson` skips: a non-object entry or an
object without a `pos` key. -/
def isMalformed (e : Option JRecord) : Bool :=
  match e with
  | none => true
  | some r => r.pos.isNone

/-- An entry that conflicts with the marker list `st`: its position holds
a marker whose comment or (sanitized) type differs from the record. -/
def recConflicts (st : MarkerListModel) (e : Option JRecord) : Bool :=
  match e with
  | none => false
  | some r =>
    match r.pos with
    | none => false
    | some p =>
      st.hasMarker p &&
        !(((st.marker p).comment == r.comment.getD "Marker") &&
          (resolveType (r.mtype.getD 0) == (st.marker p).markerType))

theorem resolveType_valid (t : Int) :
    0 ≤ resolveType t ∧ resolveType t < markerTypesCount := by
  unfold resolveType markerTypesCount
  split
  · omega
  · next h =>
    push_neg at h
    omega

/-- Master induction for `importFromJson` with `ignoreConflicts = false`:
with an accumulated nextId-free undo closure that restores the observable
state of `st0`, the loop never hits an assertion, a failed import has run
its undo closure (restoring `st0`), and a successful import preserves the
invariant, keeps every pre-existing marker of `st0` intact and implies
that no processed record conflicted with `st0`. -/
theorem importLoop_master :
    ∀ (l : List (Option JRecord)) (st : MarkerListModel) (u r : List PrimOp)
      (st0 : MarkerListModel),
      st.Inv →
      nextIdFreeOps u = true →
      (∃ str, runFun u st = some str ∧ str.observable = st0.observable) →
      (∀ p, st0.hasMarker p = true → st.hasMarker p = true ∧ st.marker p = st0.marker p) →
      ∃ res st1 u1 r1, st.importLoop l false u r = some (res, st1, u1, r1) ∧
        (res = false → st1.observable = st0.observable) ∧
        (res = true → st1.Inv ∧ nextIdFreeOps u1 = true ∧
          (∃ str, runFun u1 st1 = some str ∧ str.observable = st0.observable) ∧
          (∀ p, st0.hasMarker p = true →
            st1.hasMarker p = true ∧ st1.marker p = st0.marker p) ∧
          l.any (recConflicts st0) = false) := by
  intro l
  induction l with
  | nil =>
    intro st u r st0 hInv hu hundo hpres
    refine ⟨true, st, u, r, rfl, ?_, ?_⟩
    · intro hc; cases hc
    · intro _
      exact ⟨hInv, hu, hundo, hpres, rfl⟩
  | cons e rest ih =>
    intro st u r st0 hInv hu hundo hpres
    cases e with
    | none =>
      have hstep : st.importLoop (none :: rest) false u r = st.importLoop rest false u r := rfl
      rw [hstep]
      obtain ⟨res, st1, u1, r1, heq, hf, htr⟩ := ih st u r st0 hInv hu hundo hpres
      refine ⟨res, st1, u1, r1, heq, hf, fun hres => ?_⟩
      obtain ⟨a1, a2, a3, a4, a5⟩ := htr hres
      refine ⟨a1, a2, a3, a4, ?_⟩
      simp [recConflicts, a5]
    | some rec =>
      obtain ⟨rpos, rc, rt⟩ := rec
      cases rpos with
      | none =>
        have hstep : st.importLoop (some ⟨none, rc, rt⟩ :: rest) false u r =
            st.importLoop rest false u r := rfl
        rw [hstep]
        obtain ⟨res, st1, u1, r1, heq, hf, htr⟩ := ih st u r st0 hInv hu hundo hpres
        refine ⟨res, st1, u1, r1, heq, hf, fun hres => ?_⟩
        obtain ⟨a1, a2, a3, a4, a5⟩ := htr hres
        refine ⟨a1, a2, a3, a4, ?_⟩
        simp [recConflicts, a5]
      | some p =>
        obtain ⟨str, hstr, hobs⟩ := hundo
        have htv := resolveType_valid (rt.getD 0)
        simp only [MarkerListModel.importLoop]
        by_cases hm : st.hasMarker p = true
        · rw [if_pos (show True ∧ st.hasMarker p = true from ⟨trivial, hm⟩)]
          by_cases hres : (((st.marker p).comment == rc.getD "Marker") &&
              (resolveType (rt.getD 0) == (st.marker p).markerType)) = true
          · -- identical duplicate: the rename is a no-op on the state
            rw [if_pos hres, addMarkerUR_rename u r hm htv]
            rw [Bool.and_eq_true] at hres
            obtain ⟨hbc, hbt⟩ := hres
            have hceq : (st.marker p).comment = rc.getD "Marker" := eq_of_beq hbc
            have hteq : resolveType (rt.getD 0) = (st.marker p).markerType := eq_of_beq hbt
            have hid : st.applyChg p (rc.getD "Marker") (resolveType (rt.getD 0)) = st :=
              applyChg_identity hInv hm hceq.symm hteq
            rw [hid]
            have hid2 : st.applyChg p (st.marker p).comment (st.marker p).markerType = st :=
              applyChg_identity hInv hm rfl rfl
            have hundo2 : runFun (PrimOp.chg p (st.marker p).comment
                (st.marker p).markerType :: u) st = some str := by
              rw [runFun, runOp, if_pos hm, hid2]
              exact hstr
            have hu2 : nextIdFreeOps (PrimOp.chg p (st.marker p).comment
                (st.marker p).markerType :: u) = true := by
              simpa [nextIdFreeOps, PrimOp.nextIdFree] using hu
            obtain ⟨res, st1, u1, r1, heq, hf, htr⟩ :=
              ih st _ _ st0 hInv hu2 ⟨str, hundo2, hobs⟩ hpres
            refine ⟨res, st1, u1, r1, heq, hf, fun hr => ?_⟩
            obtain ⟨a1, a2, a3, a4, a5⟩ := htr hr
            refine ⟨a1, a2, a3, a4, ?_⟩
            have hhead : recConflicts st0 (some ⟨some p, rc, rt⟩) = false := by
              by_cases hq : st0.hasMarker p = true
              · obtain ⟨hq1, hq2⟩ := hpres p hq
                simp only [recConflicts]
                rw [hq, ← hq2, hbc, hbt]
                rfl
              · have hq2 : st0.hasMarker p = false := by
                  cases hq3 : st0.hasMarker p
                  · rfl
                  · exact absurd hq3 hq
                simp only [recConflicts]
                rw [hq2]
                rfl
            simp [hhead, a5]
          · -- conflicting record: the accumulated undo closure runs
            rw [if_neg hres, hstr]
            exact ⟨false, str, u, r, rfl, fun _ => hobs, fun hc => Bool.noConfusion hc⟩
        · -- fresh position: a plain add
          have hm2 : st.hasMarker p = false := by
            cases hm3 : st.hasMarker p
            · rfl
            · exact absurd hm3 hm
          rw [if_neg (fun hc : True ∧ st.hasMarker p = true => hm hc.2), if_pos rfl,
            addMarkerUR_fresh u r hm2 htv]
          obtain ⟨stx, hrunx, hobsx⟩ := runOp_del_applyAdd (rc.getD "Marker")
            (resolveType (rt.getD 0)) hInv hm2
          have hInv2 := Inv_applyAdd (rc.getD "Marker") (resolveType (rt.getD 0)) hInv hm2
          have hu2 : nextIdFreeOps (PrimOp.del p :: u) = true := by
            simpa [nextIdFreeOps, PrimOp.nextIdFree] using hu
          have hcong := runFun_obs_congr hu hobsx
          rw [hstr] at hcong
          have hundo2 : ∃ strx, runFun (PrimOp.del p :: u)
              (st.applyAdd p (rc.getD "Marker") (resolveType (rt.getD 0))) = some strx ∧
              strx.observable = st0.observable := by
            have hrw : runFun (PrimOp.del p :: u)
                (st.applyAdd p (rc.getD "Marker") (resolveType (rt.getD 0))) =
                runFun u stx := by
              rw [runFun, hrunx]
            cases hx : runFun u stx with
            | none =>
              rw [hx] at hcong
              exact Option.noConfusion hcong
            | some strx =>
              rw [hx] at hcong
              have hsx : strx.observable = str.observable := Option.some_injective _ hcong
              exact ⟨strx, by rw [hrw, hx], by rw [hsx, hobs]⟩
          have hpres2 : ∀ q, st0.hasMarker q = true →
              (st.applyAdd p (rc.getD "Marker") (resolveType (rt.getD 0))).hasMarker q = true ∧
              (st.applyAdd p (rc.getD "Marker") (resolveType (rt.getD 0))).marker q =
                st0.marker q := by
            intro q hq
            obtain ⟨hq1, hq2⟩ := hpres q hq
            have hqp : q ≠ p := by
              intro hcontra
              rw [hcontra] at hq1
              rw [hq1] at hm2
              cases hm2
            constructor
            · rw [hasMarker_applyAdd_ne st _ _ hqp, hq1]
            · rw [marker_applyAdd_ne hInv hqp hq1, hq2]
          obtain ⟨res, st1, u1, r1, heq, hf, htr⟩ :=
            ih _ _ _ st0 hInv2 hu2 hundo2 hpres2
          refine ⟨res, st1, u1, r1, heq, hf, fun hr => ?_⟩
          obtain ⟨a1, a2, a3, a4, a5⟩ := htr hr
          refine ⟨a1, a2, a3, a4, ?_⟩
          have hq0 : st0.hasMarker p = false := by
            cases hq3 : st0.hasMarker p
            · rfl
            · have hcc := (hpres p hq3).1
              rw [hcc] at hm2
              cases hm2
          have hhead : recConflicts st0 (some ⟨some p, rc, rt⟩) = false := by
            simp only [recConflicts]
            rw [hq0]
            rfl
          simp [hhead, a5]

theorem eq_false_of_not_true {b : Bool} (h : ¬(b = true)) : b = false := by
  cases b
  · rfl
  · exact absurd rfl h

theorem eq_true_of_not_false {b : Bool} (h : ¬(b = false)) : b = true := by
  cases b
  · exact absurd rfl h
  · rfl

theorem addMarkerUR_neg1_rename {st : MarkerListModel} {pos : Int} {c : String}
    (u r : List PrimOp) (hm : st.hasMarker pos = true) :
    st.addMarkerUR pos c (-1) u r = some (true, st.applyChg pos c defaultMarkerType,
      PrimOp.chg pos (st.marker pos).comment (st.marker pos).markerType :: u,
      r ++ [PrimOp.chg pos c defaultMarkerType]) := by
  simp only [MarkerListModel.addMarkerUR]
  rw [if_pos trivial,
    if_neg (not_not_intro
      (by decide : (0 : Int) ≤ defaultMarkerType ∧ defaultMarkerType < markerTypesCount)),
    if_pos hm, runFun_single_chg hm]
  rfl

theorem addMarkerUR_neg1_fresh {st : MarkerListModel} {pos : Int} {c : String}
    (u r : List PrimOp) (hm : st.hasMarker pos = false) :
    st.addMarkerUR pos c (-1) u r = some (true, st.applyAdd pos c defaultMarkerType,
      PrimOp.del pos :: u, r ++ [PrimOp.add pos c defaultMarkerType]) := by
  have hmneg : ¬(st.hasMarker pos = true) := by rw [hm]; exact Bool.false_ne_true
  simp only [MarkerListModel.addMarkerUR]
  rw [if_pos trivial,
    if_neg (not_not_intro
      (by decide : (0 : Int) ≤ defaultMarkerType ∧ defaultMarkerType < markerTypesCount)),
    if_neg hmneg, runFun_single_add hm]
  rfl

theorem addMarkerUR_invalid {st : MarkerListModel} {pos : Int} {c : String} {t : Int}
    (u r : List PrimOp) (hneg : t ≠ -1) (hbad : ¬(0 ≤ t ∧ t < markerTypesCount)) :
    st.addMarkerUR pos c t u r = none := by
  simp only [MarkerListModel.addMarkerUR]
  rw [if_neg hneg, if_pos hbad]

/-! ### Invariant preservation through the public API -/

theorem addMarkerUR_inv {st : MarkerListModel} {pos : Int} {c : String} {t : Int}
    {u r : List PrimOp} {out : Bool × MarkerListModel × List PrimOp × List PrimOp}
    (hInv : st.Inv) (h : st.addMarkerUR pos c t u r = some out) : out.2.1.Inv := by
  by_cases hneg : t = -1
  · subst hneg
    by_cases hm : st.hasMarker pos = true
    · rw [addMarkerUR_neg1_rename u r hm] at h
      cases h
      exact Inv_applyChg _ _ hInv hm
    · rw [addMarkerUR_neg1_fresh u r (eq_false_of_not_true hm)] at h
      cases h
      exact Inv_applyAdd _ _ hInv (eq_false_of_not_true hm)
  · by_cases hval : 0 ≤ t ∧ t < markerTypesCount
    · by_cases hm : st.hasMarker pos = true
      · rw [addMarkerUR_rename u r hm hval] at h
        cases h
        exact Inv_applyChg _ _ hInv hm
      · rw [addMarkerUR_fresh u r (eq_false_of_not_true hm) hval] at h
        cases h
        exact Inv_applyAdd _ _ hInv (eq_false_of_not_true hm)
    · rw [addMarkerUR_invalid u r hneg hval] at h
      exact Option.noConfusion h

theorem removeMarkerUR_inv {st : MarkerListModel} {pos : Int}
    {u r : List PrimOp} {out : Bool × MarkerListModel × List PrimOp × List PrimOp}
    (hInv : st.Inv) (h : st.removeMarkerUR pos u r = some out) : out.2.1.Inv := by
  by_cases hm : st.hasMarker pos = true
  · rw [removeMarkerUR_hit u r hm] at h
    cases h
    exact Inv_applyDel hInv hm
  · rw [removeMarkerUR_miss u r (eq_false_of_not_true hm)] at h
    cases h
    exact hInv

theorem importLoop_inv : ∀ {l : List (Option JRecord)} {st : MarkerListModel} {ig : Bool}
    {u r : List PrimOp} {out : Bool × MarkerListModel × List PrimOp × List PrimOp},
    st.Inv → st.importLoop l ig u r = some out → out.2.1.Inv := by
  intro l
  induction l with
  | nil =>
    intro st ig u r out hInv h
    cases h
    exact hInv
  | cons e rest ih =>
    intro st ig u r out hInv h
    cases e with
    | none => exact ih hInv h
    | some rec =>
      obtain ⟨rpos, rc, rt⟩ := rec
      cases rpos with
      | none => exact ih hInv h
      | some p =>
        simp only [MarkerListModel.importLoop] at h
        by_cases hc : (if ig = false ∧ st.hasMarker p = true then
            ((st.marker p).comment == rc.getD "Marker") &&
              (resolveType (rt.getD 0) == (st.marker p).markerType)
          else true) = true
        · rw [if_pos hc] at h
          by_cases hm : st.hasMarker p = true
          · rw [addMarkerUR_rename u r hm (resolveType_valid _)] at h
            have h2 : (st.applyChg p (rc.getD "Marker")
                (resolveType (rt.getD 0))).importLoop rest ig
                (PrimOp.chg p (st.marker p).comment (st.marker p).markerType :: u)
                (r ++ [PrimOp.chg p (rc.getD "Marker") (resolveType (rt.getD 0))]) =
                some out := h
            exact ih (Inv_applyChg _ _ hInv hm) h2
          · have hm2 := eq_false_of_not_true hm
            rw [addMarkerUR_fresh u r hm2 (resolveType_valid _)] at h
            have h2 : (st.applyAdd p (rc.getD "Marker")
                (resolveType (rt.getD 0))).importLoop rest ig (PrimOp.del p :: u)
                (r ++ [PrimOp.add p (rc.getD "Marker") (resolveType (rt.getD 0))]) =
                some out := h
            exact ih (Inv_applyAdd _ _ hInv hm2) h2
        · rw [if_neg hc] at h
          cases hrf : runFun u st with
          | none =>
            rw [hrf] at h
            exact Option.noConfusion h
          | some st3 =>
            rw [hrf] at h
            have h2 : some (false, st3, u, r) = some out := h
            cases h2
            exact Inv_runFun hInv hrf

theorem removeAllLoop_inv : ∀ {l : List Int} {st : MarkerListModel}
    {u r : List PrimOp} {out : Bool × MarkerListModel × List PrimOp × List PrimOp},
    st.Inv → st.removeAllLoop l u r = some out → out.2.1.Inv := by
  intro l
  induction l with
  | nil =>
    intro st u r out hInv h
    cases h
    exact hInv
  | cons p rest ih =>
    intro st u r out hInv h
    simp only [MarkerListModel.removeAllLoop] at h
    by_cases hm : st.hasMarker p = true
    · rw [removeMarkerUR_hit u r hm] at h
      have h2 : (st.applyDel p).removeAllLoop rest
          (PrimOp.add p (st.marker p).comment (st.marker p).markerType :: u)
          (r ++ [PrimOp.del p]) = some out := h
      exact ih (Inv_applyDel hInv hm) h2
    · rw [removeMarkerUR_miss u r (eq_false_of_not_true hm)] at h
      have h2 : (match runFun u st with
          | some st2 => some (false, st2, u, r)
          | none => none) = some out := h
      cases hrf : runFun u st with
      | none =>
        rw [hrf] at h2
        exact Option.noConfusion h2
      | some st2 =>
        rw [hrf] at h2
        have h3 : some (false, st2, u, r) = some out := h2
        cases h3
        exact Inv_runFun hInv hrf

theorem editMarker_inv {st : MarkerListModel} {oldPos pos : Int} {c : String} {t : Int}
    {out : Bool × MarkerListModel × List String}
    (hInv : st.Inv) (h : st.editMarker oldPos pos c t = some out) : out.2.1.Inv := by
  simp only [MarkerListModel.editMarker] at h
  by_cases hm0 : st.hasMarker oldPos = false
  · rw [if_pos hm0] at h
    exact Option.noConfusion h
  · rw [if_neg hm0] at h
    have hm1 : st.hasMarker oldPos = true := eq_true_of_not_false hm0
    by_cases hid : (oldPos = pos ∧
        (st.marker oldPos).comment = (if c = "" then (st.marker oldPos).comment else c) ∧
        (st.marker oldPos).markerType =
          (if t = -1 then (st.marker oldPos).markerType else t))
    · rw [if_pos hid] at h
      have h2 : some (true, st, ([] : List String)) = some out := h
      cases h2
      exact hInv
    · rw [if_neg hid] at h
      rw [removeMarkerUR_hit [] [] hm1] at h
      have hInvD : (st.applyDel oldPos).Inv := Inv_applyDel hInv hm1
      have h2 : (match (st.applyDel oldPos).addMarkerUR pos
          (if c = "" then (st.marker oldPos).comment else c)
          (if t = -1 then (st.marker oldPos).markerType else t)
          [PrimOp.add oldPos (st.marker oldPos).comment (st.marker oldPos).markerType]
          [PrimOp.del oldPos] with
        | none => none
        | some (res2, st2, undo2, _) =>
          if res2 = true then some (true, st2, [editLabel st.guide])
          else
            match runFun undo2 st2 with
            | some st3 => some (false, st3, ([] : List String))
            | none => none) = some out := h
      cases haur : (st.applyDel oldPos).addMarkerUR pos
          (if c = "" then (st.marker oldPos).comment else c)
          (if t = -1 then (st.marker oldPos).markerType else t)
          [PrimOp.add oldPos (st.marker oldPos).comment (st.marker oldPos).markerType]
          [PrimOp.del oldPos] with
      | none =>
        rw [haur] at h2
        exact Option.noConfusion h2
      | some out2 =>
        obtain ⟨res2, st2, u2, r2⟩ := out2
        rw [haur] at h2
        have hInv2 : st2.Inv := addMarkerUR_inv hInvD haur
        have h3 : (if res2 = true then some (true, st2, [editLabel st.guide])
            else match runFun u2 st2 with
              | some st3 => some (false, st3, ([] : List String))
              | none => none) = some out := h2
        by_cases hres : res2 = true
        · rw [if_pos hres] at h3
          have h4 : some (true, st2, [editLabel st.guide]) = some out := h3
          cases h4
          exact hInv2
        · rw [if_neg hres] at h3
          cases hrf : runFun u2 st2 with
          | none =>
            rw [hrf] at h3
            exact Option.noConfusion h3
          | some st3 =>
            rw [hrf] at h3
            have h4 : some (false, st3, ([] : List String)) = some out := h3
            cases h4
            exact Inv_runFun hInv2 hrf

theorem addMarker_inv {st : MarkerListModel} {pos : Int} {c : String} {t : Int}
    {out : Bool × MarkerListModel × List String}
    (hInv : st.Inv) (h : st.addMarker pos c t = some out) : out.2.1.Inv := by
  cases haur : st.addMarkerUR pos c t [] [] with
  | none =>
    simp only [MarkerListModel.addMarker, haur] at h
    exact Option.noConfusion h
  | some out2 =>
    obtain ⟨res, st1, u1, r1⟩ := out2
    simp only [MarkerListModel.addMarker, haur] at h
    have hInv1 : st1.Inv := addMarkerUR_inv hInv haur
    by_cases hres : res = true
    · rw [if_pos hres] at h
      cases h
      exact hInv1
    · rw [if_neg hres] at h
      cases h
      exact hInv1

theorem removeMarker_inv {st : MarkerListModel} {pos : Int}
    {out : Bool × MarkerListModel × List String}
    (hInv : st.Inv) (h : st.removeMarker pos = some out) : out.2.1.Inv := by
  cases hrm : st.removeMarkerUR pos [] [] with
  | none =>
    simp only [MarkerListModel.removeMarker, hrm] at h
    exact Option.noConfusion h
  | some out2 =>
    obtain ⟨res, st1, u1, r1⟩ := out2
    simp only [MarkerListModel.removeMarker, hrm] at h
    have hInv1 : st1.Inv := removeMarkerUR_inv hInv hrm
    by_cases hres : res = true
    · rw [if_pos hres] at h
      cases h
      exact hInv1
    · rw [if_neg hres] at h
      cases hrf : runFun u1 st1 with
      | none =>
        rw [hrf] at h
        exact Option.noConfusion h
      | some st2 =>
        rw [hrf] at h
        have h2 : some (false, st1, ([] : List String)) = some out := h
        cases h2
        exact hInv1

theorem importFromJson_inv {st : MarkerListModel} {data : JsonData} {ig pu : Bool}
    {out : Bool × MarkerListModel × List String}
    (hInv : st.Inv) (h : st.importFromJson data ig pu = some out) : out.2.1.Inv := by
  cases data with
  | none =>
    have h2 : some (false, st, if pu then [importLabel st.guide] else ([] : List String)) =
        some out := h
    cases h2
    exact hInv
  | some l =>
    cases hil : st.importLoop l ig [] [] with
    | none =>
      simp only [MarkerListModel.importFromJson, MarkerListModel.importFromJsonUR, hil] at h
      exact Option.noConfusion h
    | some out2 =>
      obtain ⟨res, st1, u1, r1⟩ := out2
      simp only [MarkerListModel.importFromJson, MarkerListModel.importFromJsonUR, hil] at h
      have hInv1 : st1.Inv := importLoop_inv hInv hil
      cases h
      exact hInv1

theorem removeAllMarkers_inv {st : MarkerListModel}
    {out : Bool × MarkerListModel × List String}
    (hInv : st.Inv) (h : st.removeAllMarkers = some out) : out.2.1.Inv := by
  cases hloop : st.removeAllLoop (st.markerList.map (fun ic => ic.2.time)) [] [] with
  | none =>
    simp only [MarkerListModel.removeAllMarkers, hloop] at h
    exact Option.noConfusion h
  | some out2 =>
    obtain ⟨res, st1, u1, r1⟩ := out2
    simp only [MarkerListModel.removeAllMarkers, hloop] at h
    have hInv1 : st1.Inv := removeAllLoop_inv hInv hloop
    by_cases hres : res = true
    · rw [if_pos hres] at h
      cases h
      exact hInv1
    · rw [if_neg hres] at h
      cases h
      exact hInv1

/-! ### moveMarker -/

theorem moveMarker_occupied {st : MarkerListModel} {mid pos : Int} {old : CommentedTime}
    (hmid : mapLookup mid st.markerList = some old) (h : st.hasMarker pos = true) :
    st.moveMarker mid pos = some (false, st) := by
  simp only [MarkerListModel.moveMarker, hmid]
  rw [if_pos h]

theorem moveMarker_free {st : MarkerListModel} {mid pos : Int} {old : CommentedTime}
    (hmid : mapLookup mid st.markerList = some old) (h : st.hasMarker pos = false) :
    st.moveMarker mid pos = some (true,
      { st with
        markerList := mapInsert mid ⟨pos, old.comment, old.markerType⟩ st.markerList
        markerPositions := mapInsert pos mid (mapRemove old.time st.markerPositions) }) := by
  simp only [MarkerListModel.moveMarker, hmid]
  rw [if_neg (by rw [h]; exact Bool.false_ne_true)]

theorem Inv_moveMarker {st : MarkerListModel} {mid pos : Int} {old : CommentedTime}
    (hInv : st.Inv) (hmid : mapLookup mid st.markerList = some old)
    (h : st.hasMarker pos = false) :
    ({ st with
       markerList := mapInsert mid ⟨pos, old.comment, old.markerType⟩ st.markerList
       markerPositions := mapInsert pos mid (mapRemove old.time st.markerPositions) } :
      MarkerListModel).Inv := by
  obtain ⟨h1, h2, h3, h4, h5⟩ := hInv
  have hpnone := hasMarker_eq_false_iff.mp h
  have holdmem : (mid, old) ∈ st.markerList := mapLookup_mem hmid
  have holdpos : mapLookup old.time st.markerPositions = some mid := h4 (mid, old) holdmem
  refine ⟨keysSorted_mapInsert _ _ h1,
    keysSorted_mapInsert _ _ (keysSorted_mapRemove _ h2), ?_, ?_, ?_⟩
  · intro pi hpi
    rcases mem_mapInsert hpi with heq | hpi2
    · rw [heq]
      have hx : (mapLookup mid (mapInsert mid
          (⟨pos, old.comment, old.markerType⟩ : CommentedTime) st.markerList)).map
            CommentedTime.time = some pos := by
        rw [mapLookup_mapInsert_self]
        rfl
      exact hx
    · obtain ⟨hpi3, hpine⟩ := mem_mapRemove_ne h2 hpi2
      have h3p := h3 pi hpi3
      have hpmid : pi.2 ≠ mid := by
        intro hcontra
        rw [hcontra, hmid] at h3p
        have : old.time = pi.1 := by simpa using h3p
        omega
      rw [mapLookup_mapInsert_ne _ hpmid, h3p]
  · intro ic hic
    rcases mem_mapInsert_ne h1 hic with heq | ⟨hic2, hicne⟩
    · rw [heq]
      have hx : mapLookup (⟨pos, old.comment, old.markerType⟩ : CommentedTime).time
          (mapInsert pos mid (mapRemove old.time st.markerPositions)) = some mid :=
        mapLookup_mapInsert_self _ _ _
      exact hx
    · have h4p := h4 ic hic2
      have htpos : ic.2.time ≠ pos := by
        intro hcontra
        rw [hcontra, hpnone] at h4p
        exact Option.noConfusion h4p
      have htold : ic.2.time ≠ old.time := by
        intro hcontra
        rw [hcontra, holdpos] at h4p
        injection h4p with hh
        exact hicne hh.symm
      rw [mapLookup_mapInsert_ne _ htpos, mapLookup_mapRemove_ne htold, h4p]
  · intro ic hic
    rcases mem_mapInsert hic with heq | hic2
    · rw [heq]
      exact h5 (mid, old) holdmem
    · exact h5 ic hic2

/-! ### Round-trip machinery -/

/-- Position of a parsed record (0 default, as `toInt`). -/
def recPos (e : Option JRecord) : Int :=
  match e with
  | some r => r.pos.getD 0
  | none => 0

/-- The marker data a record denotes after the import defaults. -/
def recTriple (e : Option JRecord) : Int × String × Int :=
  match e with
  | some r => (r.pos.getD 0, r.comment.getD "Marker", r.mtype.getD 0)
  | none => (0, "Marker", 0)

/-- The marker data carried by one `m_markerList` entry. -/
def entryTriple (ic : Int × CommentedTime) : Int × String × Int :=
  (ic.2.time, ic.2.comment, ic.2.markerType)

theorem keysSorted_pairwise {α : Type} :
    ∀ {m : List (Int × α)}, keysSorted m = true → m.Pairwise (fun a b => a.1 < b.1) := by
  intro m
  induction m with
  | nil => intro _; exact List.Pairwise.nil
  | cons a rest ih =>
    intro hs
    have hs1 := (keysSorted_cons a rest).mp hs
    exact List.Pairwise.cons (fun x hx => hs1.2 x hx) (ih hs1.1)

/-- Distinct markers of a consistent list sit at distinct frames. -/
theorem markerTimes_pairwise {st : MarkerListModel} (hInv : st.Inv) :
    st.markerList.Pairwise (fun a b => a.2.time ≠ b.2.time) := by
  have h4 := hInv.2.2.2.1
  have hkeys := keysSorted_pairwise hInv.1
  refine hkeys.imp_of_mem ?_
  intro a b ha hb hab hcontra
  have h4a := h4 a ha
  have h4b := h4 b hb
  rw [hcontra] at h4a
  have := h4a.symm.trans h4b
  injection this with hh
  omega

/-- A list of well-formed records at pairwise-distinct fresh positions
imports without conflicts and appends exactly its triples to the
storage, in order. -/
theorem importLoop_clean :
    ∀ (l : List (Option JRecord)) (st : MarkerListModel) (u r : List PrimOp) (ig : Bool),
      st.Inv →
      (∀ e ∈ l, ∃ p c t, e = some ⟨some p, some c, some t⟩ ∧ 0 ≤ t ∧
        t < markerTypesCount ∧ st.hasMarker p = false) →
      l.Pairwise (fun e1 e2 => recPos e1 ≠ recPos e2) →
      ∃ st1 u1 r1, st.importLoop l ig u r = some (true, st1, u1, r1) ∧
        st1.markerList.map entryTriple = st.markerList.map entryTriple ++ l.map recTriple ∧
        st1.Inv := by
  intro l
  induction l with
  | nil =>
    intro st u r ig hInv _ _
    exact ⟨st, u, r, rfl, by simp, hInv⟩
  | cons e rest ih =>
    intro st u r ig hInv hw hnd
    obtain ⟨p, c, t, heq, ht0, ht9, hp⟩ := hw e (List.mem_cons_self e rest)
    subst heq
    have htres : resolveType t = t := by
      unfold resolveType
      rw [if_neg (by omega)]
    have hcond : ¬(ig = false ∧ st.hasMarker p = true) := by
      intro hc
      rw [hp] at hc
      exact Bool.noConfusion hc.2
    simp only [MarkerListModel.importLoop, Option.getD_some]
    rw [htres, if_neg hcond, if_pos rfl, addMarkerUR_fresh u r hp ⟨ht0, ht9⟩]
    have hInvA := Inv_applyAdd c t hInv hp
    have hndtail := (List.pairwise_cons.mp hnd).2
    have hndhead := (List.pairwise_cons.mp hnd).1
    have hwrest : ∀ e2 ∈ rest, ∃ p2 c2 t2, e2 = some ⟨some p2, some c2, some t2⟩ ∧
        0 ≤ t2 ∧ t2 < markerTypesCount ∧
        (st.applyAdd p c t).hasMarker p2 = false := by
      intro e2 he2
      obtain ⟨p2, c2, t2, heq2, a2, b2, hfresh⟩ := hw e2 (List.mem_cons_of_mem _ he2)
      refine ⟨p2, c2, t2, heq2, a2, b2, ?_⟩
      have hne0 := hndhead e2 he2
      rw [heq2] at hne0
      have hne : p2 ≠ p := by
        intro hc
        exact hne0 (by rw [hc]; rfl)
      rw [hasMarker_applyAdd_ne st _ _ hne]
      exact hfresh
    obtain ⟨st1, u1, r1, heq1, hmap, hInv1⟩ :=
      ih (st.applyAdd p c t) (PrimOp.del p :: u) (r ++ [PrimOp.add p c t]) ig
        hInvA hwrest hndtail
    refine ⟨st1, u1, r1, heq1, ?_, hInv1⟩
    have happ : (st.applyAdd p c t).markerList =
        st.markerList ++ [(st.nextId + 1, ⟨p, c, t⟩)] := by
      have hb := hInv.2.2.2.2
      have hx : mapInsert (st.nextId + 1) (⟨p, c, t⟩ : CommentedTime) st.markerList =
          st.markerList ++ [(st.nextId + 1, (⟨p, c, t⟩ : CommentedTime))] := by
        refine mapInsert_append_of_gt _ ?_
        intro x hx2
        have := hb x hx2
        omega
      exact hx
    rw [hmap, happ, List.map_append, List.append_assoc]
    rfl

theorem marker_applyChg_self {st : MarkerListModel} {pos : Int} {c : String} {t : Int}
    (hInv : st.Inv) (hm : st.hasMarker pos = true) :
    (st.applyChg pos c t).marker pos = ⟨(st.marker pos).time, c, t⟩ := by
  obtain ⟨mid, ct, hmid, hct, htime, hmq, _⟩ := marker_spec hInv hm
  simp only [MarkerListModel.marker, MarkerListModel.applyChg, MarkerListModel.getIdFromPos,
    hmid, hct, mapLookup_mapInsert_self, hmq]

theorem marker_applyDel_ne {st : MarkerListModel} {p q : Int} (hInv : st.Inv)
    (hqp : q ≠ p) (hq : st.hasMarker q = true) (hm : st.hasMarker p = true) :
    (st.applyDel p).marker q = st.marker q := by
  obtain ⟨midp, ctp, hmidp, hctp, htimep, _, _⟩ := marker_spec hInv hm
  obtain ⟨midq, ctq, hmidq, hctq, htimeq, hmq, _⟩ := marker_spec hInv hq
  have hgid : st.getIdFromPos p = midp := by
    simp only [MarkerListModel.getIdFromPos, hmidp]
  have hmidne : midq ≠ midp := by
    intro hc
    rw [hc, hctp] at hctq
    injection hctq with hh
    rw [← hh] at htimeq
    omega
  simp only [MarkerListModel.marker, MarkerListModel.applyDel, hgid,
    mapLookup_mapRemove_ne hqp, hmidq, mapLookup_mapRemove_ne hmidne, hctq]

theorem hasMarker_applyDel_self {st : MarkerListModel} {p : Int}
    (hs : keysSorted st.markerPositions = true) :
    (st.applyDel p).hasMarker p = false := by
  show (mapLookup p (mapRemove p st.markerPositions)).isSome = false
  rw [mapLookup_mapRemove_self hs]
  rfl

theorem hasMarker_applyDel_ne {st : MarkerListModel} {p q : Int} (hqp : q ≠ p) :
    (st.applyDel p).hasMarker q = st.hasMarker q := by
  show (mapLookup q (mapRemove p st.markerPositions)).isSome = _
  rw [mapLookup_mapRemove_ne hqp]
  rfl

/-- Example marker list: one clip marker "A" of type 0 at frame 100. -/
def exSt : MarkerListModel :=
  { markerList := [(1, ⟨100, "A", 0⟩)]
    markerPositions := [(100, 1)]
    registeredSnaps := []
    guide := false
    nextId := 1 }

/-- Example marker list with markers at frames 10 and 20. -/
def exC1 : MarkerListModel :=
  { markerList := [(1, ⟨10, "a", 0⟩), (2, ⟨20, "b", 0⟩)]
    markerPositions := [(10, 1), (20, 2)]
    registeredSnaps := []
    guide := false
    nextId := 2 }

/-- A fresh empty marker list. -/
def emptyModel (g : Bool) (n : Int) : MarkerListModel := ⟨[], [], [], g, n⟩

/-- C7: constructing a `MoveableItem` with an explicit id keeps that id
and leaves the global counter untouched; constructing it with id `-1`
mints a fresh id from the monotonic counter (strictly above every id
handed out before) and `getId` returns it. -/
theorem moveableItem_id_allocation (counter id : Int) :
    (id ≠ -1 → (MoveableItem.construct counter id).1.getId = id ∧
      (MoveableItem.construct counter id).2 = counter) ∧
    (id = -1 → (MoveableItem.construct counter id).1.getId = counter + 1 ∧
      (MoveableItem.construct counter id).2 = counter + 1 ∧
      counter < (MoveableItem.construct counter id).1.getId) := by
  constructor
  · intro h
    simp [MoveableItem.construct, MoveableItem.getId, h]
  · intro h
    subst h
    refine ⟨rfl, rfl, ?_⟩
    show counter < counter + 1
    omega

theorem moveableItem_id_allocation_witness :
    (MoveableItem.construct 3 7).1.getId = 7 ∧
    (MoveableItem.construct 3 (-1)).1.getId = 3 + 1 := by
  exact ⟨((moveableItem_id_allocation 3 7).1 (by decide)).1,
    ((moveableItem_id_allocation 3 (-1)).2 rfl).1⟩

/-- C10: `moveMarker` aborts returning false, with no mutation at all,
when the target frame already holds a marker; otherwise it retimes the
marker in place (same id, comment and type), rewrites the position index
consistently and preserves the model invariant. -/
theorem moveMarker_spec (st : MarkerListModel) (mid : Int) (old : CommentedTime)
    (hInv : st.Inv) (hmid : mapLookup mid st.markerList = some old) :
    (∀ pos, st.hasMarker pos = true → st.moveMarker mid pos = some (false, st)) ∧
    (∀ pos, st.hasMarker pos = false →
      ∃ st1, st.moveMarker mid pos = some (true, st1) ∧
        mapLookup mid st1.markerList = some ⟨pos, old.comment, old.markerType⟩ ∧
        mapLookup pos st1.markerPositions = some mid ∧
        st1.hasMarker old.time = false ∧
        (∀ i, i ≠ mid → mapLookup i st1.markerList = mapLookup i st.markerList) ∧
        st1.Inv) := by
  constructor
  · intro pos h
    exact moveMarker_occupied hmid h
  · intro pos h
    have holdpos : mapLookup old.time st.markerPositions = some mid :=
      hInv.2.2.2.1 (mid, old) (mapLookup_mem hmid)
    have hne : old.time ≠ pos := by
      intro hc
      rw [hc, hasMarker_eq_false_iff.mp h] at holdpos
      exact Option.noConfusion holdpos
    refine ⟨_, moveMarker_free hmid h, ?_, ?_, ?_, ?_, Inv_moveMarker hInv hmid h⟩
    · exact mapLookup_mapInsert_self _ _ _
    · exact mapLookup_mapInsert_self _ _ _
    · show (mapLookup old.time
        (mapInsert pos mid (mapRemove old.time st.markerPositions))).isSome = false
      rw [mapLookup_mapInsert_ne _ hne, mapLookup_mapRemove_self hInv.2.1]
      rfl
    · intro i hi
      exact mapLookup_mapInsert_ne _ hi _

theorem moveMarker_spec_witness :
    exSt.moveMarker 1 100 = some (false, exSt) := by
  exact (moveMarker_spec exSt 1 ⟨100, "A", 0⟩ (by decide) rfl).1 100 (by decide)

/-- The public `moveMarker` preserves the invariant. -/
theorem moveMarker_inv {st : MarkerListModel} {mid pos : Int}
    {out : Bool × MarkerListModel}
    (hInv : st.Inv) (h : st.moveMarker mid pos = some out) : out.2.Inv := by
  cases hmid : mapLookup mid st.markerList with
  | none =>
    simp only [MarkerListModel.moveMarker, hmid] at h
    exact Option.noConfusion h
  | some old =>
    by_cases hm : st.hasMarker pos = true
    · rw [moveMarker_occupied hmid hm] at h
      cases h
      exact hInv
    · rw [moveMarker_free hmid (eq_false_of_not_true hm)] at h
      cases h
      exact Inv_moveMarker hInv hmid (eq_false_of_not_true hm)

/-- C6: `removeMarker` returns false without any mutation or undo push
when no marker sits at `pos`; otherwise it removes exactly that marker
from both maps, makes every live registered snap consumer drop the point
(pruning the expired ones) and pushes a "Delete …" transaction. -/
theorem removeMarker_spec (st : MarkerListModel) (hInv : st.Inv) :
    (∀ pos, st.hasMarker pos = false → st.removeMarker pos = some (false, st, [])) ∧
    (∀ pos, st.hasMarker pos = true →
      ∃ mid, mapLookup pos st.markerPositions = some mid ∧
        st.removeMarker pos = some (true,
          { st with
            markerList := mapRemove mid st.markerList
            markerPositions := mapRemove pos st.markerPositions
            registeredSnaps := snapRemovePoint pos st.registeredSnaps },
          [deleteLabel st.guide])) := by
  constructor
  · intro pos h
    simp only [MarkerListModel.removeMarker]
    rw [removeMarkerUR_miss [] [] h]
    rfl
  · intro pos h
    obtain ⟨mid, hmid⟩ := hasMarker_eq_true_iff.mp h
    have hgid : st.getIdFromPos pos = mid := by
      simp only [MarkerListModel.getIdFromPos, hmid]
    have hdel : st.applyDel pos =
        { st with
          markerList := mapRemove mid st.markerList
          markerPositions := mapRemove pos st.markerPositions
          registeredSnaps := snapRemovePoint pos st.registeredSnaps } := by
      simp only [MarkerListModel.applyDel, hgid]
    refine ⟨mid, hmid, ?_⟩
    simp only [MarkerListModel.removeMarker]
    rw [removeMarkerUR_hit [] [] h, hdel]
    rfl

theorem removeMarker_spec_witness :
    exSt.removeMarker 100 = some (true,
      { exSt with
        markerList := mapRemove 1 exSt.markerList
        markerPositions := mapRemove 100 exSt.markerPositions
        registeredSnaps := snapRemovePoint 100 exSt.registeredSnaps },
      [deleteLabel exSt.guide]) := by
  obtain ⟨mid, hmid, heq⟩ := (removeMarker_spec exSt (by decide)).2 100 (by decide)
  have hm2 : (some (1 : Int) : Option Int) = some mid :=
    (show (some (1 : Int) : Option Int) = mapLookup 100 exSt.markerPositions from rfl).trans
      hmid
  injection hm2 with hm3
  rw [← hm3] at heq
  exact heq

/-- C3: when a marker already sits at `pos`, the public `addMarker`
overwrites its comment and type in place: the position index is
untouched, exactly one marker carries frame `pos` afterwards (the same
id as before, now holding the new comment and type, its time unchanged),
and the pushed transaction is labeled "Rename guide"/"Rename marker".
Moreover, `addMarker` never returns false for any palette type or the
`-1` default. -/
theorem addMarker_existing_is_rename (st : MarkerListModel) (hInv : st.Inv) :
    (∀ pos c t, 0 ≤ t → t < markerTypesCount → st.hasMarker pos = true →
      ∃ mid, mapLookup pos st.markerPositions = some mid ∧
        st.addMarker pos c t = some (true, st.applyChg pos c t, [renameLabel st.guide]) ∧
        (st.applyChg pos c t).markerPositions = st.markerPositions ∧
        mapLookup mid (st.applyChg pos c t).markerList =
          some ⟨(st.marker pos).time, c, t⟩ ∧
        (st.marker pos).time = pos ∧
        (∀ i ct, (i, ct) ∈ (st.applyChg pos c t).markerList → ct.time = pos → i = mid)) ∧
    (∀ pos c t, (t = -1 ∨ (0 ≤ t ∧ t < markerTypesCount)) →
      ∃ st1 lab, st.addMarker pos c t = some (true, st1, lab)) := by
  constructor
  · intro pos c t h0 h9 hm
    obtain ⟨mid, ct, hmid, hct, htime, hmq, _⟩ := marker_spec hInv hm
    have haur := @addMarkerUR_rename st pos c t ([] : List PrimOp) ([] : List PrimOp)
      hm ⟨h0, h9⟩
    have haddeq : st.addMarker pos c t =
        some (true, st.applyChg pos c t, [renameLabel st.guide]) := by
      simp only [MarkerListModel.addMarker]
      rw [haur, if_pos hm]
      rfl
    have hInvC := Inv_applyChg c t hInv hm
    refine ⟨mid, hmid, haddeq, rfl, ?_, ?_, ?_⟩
    · have hgid : st.getIdFromPos pos = mid := by
        simp only [MarkerListModel.getIdFromPos, hmid]
      simp only [MarkerListModel.applyChg, hgid, hct, mapLookup_mapInsert_self, hmq]
    · rw [hmq]
      exact htime
    · intro i ct2 hmem htime2
      have h4c := hInvC.2.2.2.1 (i, ct2) hmem
      have h4c2 : mapLookup ct2.time st.markerPositions = some i := h4c
      rw [htime2, hmid] at h4c2
      injection h4c2 with hh
      exact hh.symm
  · intro pos c t ht
    by_cases hneg : t = -1
    · subst hneg
      by_cases hm : st.hasMarker pos = true
      · refine ⟨st.applyChg pos c defaultMarkerType, [renameLabel st.guide], ?_⟩
        simp only [MarkerListModel.addMarker]
        rw [addMarkerUR_neg1_rename [] [] hm, if_pos hm]
        rfl
      · have hm2 := eq_false_of_not_true hm
        refine ⟨st.applyAdd pos c defaultMarkerType, [addLabel st.guide], ?_⟩
        simp only [MarkerListModel.addMarker]
        rw [addMarkerUR_neg1_fresh [] [] hm2, if_neg hm]
        rfl
    · have hval : 0 ≤ t ∧ t < markerTypesCount := ht.resolve_left (fun hc => hneg hc)
      by_cases hm : st.hasMarker pos = true
      · refine ⟨st.applyChg pos c t, [renameLabel st.guide], ?_⟩
        simp only [MarkerListModel.addMarker]
        rw [addMarkerUR_rename [] [] hm hval, if_pos hm]
        rfl
      · have hm2 := eq_false_of_not_true hm
        refine ⟨st.applyAdd pos c t, [addLabel st.guide], ?_⟩
        simp only [MarkerListModel.addMarker]
        rw [addMarkerUR_fresh [] [] hm2 hval, if_neg hm]
        rfl

theorem addMarker_existing_is_rename_witness :
    exSt.addMarker 100 "B" 0 =
      some (true, exSt.applyChg 100 "B" 0, [renameLabel exSt.guide]) := by
  obtain ⟨mid, hmid, heq, _⟩ := (addMarker_existing_is_rename exSt (by decide)).1 100 "B" 0
    (by decide) (by decide) (by decide)
  exact heq

/-- `editMarker` returns true immediately, with no mutation and no undo
push, when the resolved comment, type and position all match the current
marker. -/
theorem editMarker_noop {st : MarkerListModel} {p q : Int} {c : String} {t : Int}
    (hm : st.hasMarker p = true)
    (hid : p = q ∧
      (st.marker p).comment = (if c = "" then (st.marker p).comment else c) ∧
      (st.marker p).markerType = (if t = -1 then (st.marker p).markerType else t)) :
    st.editMarker p q c t = some (true, st, []) := by
  have hmneg : ¬(st.hasMarker p = false) := by
    rw [hm]
    exact fun hc => Bool.noConfusion hc
  simp only [MarkerListModel.editMarker]
  rw [if_neg hmneg, if_pos hid]

/-- When the no-op check fails, `editMarker` performs the remove at
`p` followed by the primitive add at `q` on the removed state. -/
theorem editMarker_step {st : MarkerListModel} {p q : Int} {c : String} {t : Int}
    (hm : st.hasMarker p = true)
    (hnid : ¬(p = q ∧
      (st.marker p).comment = (if c = "" then (st.marker p).comment else c) ∧
      (st.marker p).markerType = (if t = -1 then (st.marker p).markerType else t))) :
    st.editMarker p q c t =
      (match (st.applyDel p).addMarkerUR q
          (if c = "" then (st.marker p).comment else c)
          (if t = -1 then (st.marker p).markerType else t)
          [PrimOp.add p (st.marker p).comment (st.marker p).markerType]
          [PrimOp.del p] with
        | none => none
        | some (res2, st2, undo2, _) =>
          if res2 = true then some (true, st2, [editLabel st.guide])
          else
            match runFun undo2 st2 with
            | some st3 => some (false, st3, ([] : List String))
            | none => none) := by
  have hmneg : ¬(st.hasMarker p = false) := by
    rw [hm]
    exact fun hc => Bool.noConfusion hc
  simp only [MarkerListModel.editMarker]
  rw [if_neg hmneg, if_neg hnid, removeMarkerUR_hit [] [] hm]
  rfl

/-- C8: an empty comment and type `-1` passed to `editMarker` default to
the existing marker's comment and type; with an unchanged position these
defaults make the no-op check fire (true, no undo entry), and with a new
free position the moved marker keeps its comment and type. -/
theorem editMarker_defaults (st : MarkerListModel) (hInv : st.Inv) (htv : st.typesValid) :
    (∀ p, st.hasMarker p = true → st.editMarker p p "" (-1) = some (true, st, [])) ∧
    (∀ p q, st.hasMarker p = true → st.hasMarker q = false → q ≠ p →
      ∃ st1, st.editMarker p q "" (-1) = some (true, st1, [editLabel st.guide]) ∧
        st1.marker q = ⟨q, (st.marker p).comment, (st.marker p).markerType⟩ ∧
        st1.hasMarker p = false) := by
  constructor
  · intro p hm
    exact editMarker_noop hm ⟨rfl, (if_pos rfl).symm, (if_pos rfl).symm⟩
  · intro p q hm hq hqp
    have hnid : ¬(p = q ∧
        (st.marker p).comment = (if ("" : String) = "" then (st.marker p).comment else "") ∧
        (st.marker p).markerType =
          (if (-1 : Int) = -1 then (st.marker p).markerType else -1)) :=
      fun hcc => hqp hcc.1.symm
    rw [editMarker_step hm hnid]
    rw [if_pos (rfl : ("" : String) = ""), if_pos (rfl : (-1 : Int) = -1)]
    have hInvD := Inv_applyDel hInv hm
    have hqD : (st.applyDel p).hasMarker q = false := by
      rw [hasMarker_applyDel_ne hqp]
      exact hq
    have htval : 0 ≤ (st.marker p).markerType ∧
        (st.marker p).markerType < markerTypesCount := by
      obtain ⟨mid, ct, hmid, hct, _, hmq, _⟩ := marker_spec hInv hm
      rw [hmq]
      exact htv (mid, ct) (mapLookup_mem hct)
    rw [addMarkerUR_fresh _ _ hqD htval]
    refine ⟨_, rfl, ?_, ?_⟩
    · exact marker_applyAdd_self _ _ _ _
    · rw [hasMarker_applyAdd_ne _ _ _ (fun hcc => hqp hcc.symm)]
      exact hasMarker_applyDel_self hInv.2.1

theorem editMarker_defaults_witness :
    exSt.editMarker 100 100 "" (-1) = some (true, exSt, []) := by
  exact (editMarker_defaults exSt (by decide) (by decide)).1 100 (by decide)

/-- C1 (amended): when the resolved old and new state are identical,
`editMarker` is a no-op returning true without pushing an undo entry and
without mutating anything.  When a different marker already occupies the
new position, however, the re-add step does not fail: the primitive add
treats the occupied slot as a rename, so the marker at `oldPos` is
removed, the marker at `newTime` takes the new comment and type in
place, and `editMarker` returns true pushing a single "Edit" entry; the
rollback branch of the source is unreachable because the primitive steps
always succeed. -/
theorem editMarker_noop_and_collision_rename (st : MarkerListModel) (hInv : st.Inv) :
    (∀ p q c t, st.hasMarker p = true →
      (p = q ∧ (st.marker p).comment = (if c = "" then (st.marker p).comment else c) ∧
        (st.marker p).markerType = (if t = -1 then (st.marker p).markerType else t)) →
      st.editMarker p q c t = some (true, st, [])) ∧
    (∀ p q c t, st.hasMarker p = true → st.hasMarker q = true → p ≠ q → c ≠ "" →
      0 ≤ t → t < markerTypesCount →
      ∃ st1, st.editMarker p q c t = some (true, st1, [editLabel st.guide]) ∧
        st1.hasMarker p = false ∧
        st1.marker q = ⟨(st.marker q).time, c, t⟩) := by
  constructor
  · intro p q c t hm hid
    exact editMarker_noop hm hid
  · intro p q c t hm hq hpq hc h0 h9
    have hnid : ¬(p = q ∧
        (st.marker p).comment = (if c = "" then (st.marker p).comment else c) ∧
        (st.marker p).markerType = (if t = -1 then (st.marker p).markerType else t)) :=
      fun hcc => hpq hcc.1
    rw [editMarker_step hm hnid]
    rw [if_neg hc, if_neg (by omega : ¬(t = -1))]
    have hInvD := Inv_applyDel hInv hm
    have hqD : (st.applyDel p).hasMarker q = true := by
      rw [hasMarker_applyDel_ne (fun hcc => hpq hcc.symm)]
      exact hq
    rw [addMarkerUR_rename _ _ hqD ⟨h0, h9⟩]
    refine ⟨_, rfl, ?_, ?_⟩
    · show ((st.applyDel p).applyChg q c t).hasMarker p = false
      have hsame : ((st.applyDel p).applyChg q c t).hasMarker p =
          (st.applyDel p).hasMarker p := rfl
      rw [hsame]
      exact hasMarker_applyDel_self hInv.2.1
    · rw [marker_applyChg_self hInvD hqD,
        marker_applyDel_ne hInv (fun hcc => hpq hcc.symm) hq hm]

theorem editMarker_noop_and_collision_rename_witness :
    exC1.editMarker 10 10 "a" 0 = some (true, exC1, []) := by
  exact (editMarker_noop_and_collision_rename exC1 (by decide)).1 10 10 "a" 0 (by decide)
    (by decide)

/-- The claim as stated is false on the code: with markers at frames 10
and 20, `editMarker(10, 20, "c", 0)` hits a collision at the new
position, yet it returns true (not false) and the list is visibly
changed — the marker at 10 is gone and the marker at 20 was renamed. -/
theorem editMarker_collision_counterexample :
    exC1.editMarker 10 20 "c" 0 = some (true,
      { markerList := [(2, ⟨20, "c", 0⟩)]
        markerPositions := [(20, 2)]
        registeredSnaps := []
        guide := false
        nextId := 2 }, ["Edit marker"]) ∧
    ({ markerList := [(2, ⟨20, "c", 0⟩)]
       markerPositions := [(20, 2)]
       registeredSnaps := []
       guide := false
       nextId := 2 } : MarkerListModel).markerPositions ≠ exC1.markerPositions := by
  decide

/-- C2: importing with `ignoreConflicts = false`, (i) whenever the import
returns false the whole import has been rolled back and the list is
observably unchanged, (ii) it does return false whenever some record's
position already holds a marker with a different comment or type,
(iii) a record identical to an existing marker is silently accepted as a
success that leaves the state untouched, and (iv) a malformed record
(non-object or missing position) is skipped, the import continuing as if
it were absent. -/
theorem importFromJson_conflict_rollback (st : MarkerListModel) (hInv : st.Inv) :
    (∀ l pu res st1 lab, st.importFromJson (some l) false pu = some (res, st1, lab) →
      res = false → st1.observable = st.observable) ∧
    (∀ l pu, l.any (recConflicts st) = true →
      ∃ st1 lab, st.importFromJson (some l) false pu = some (false, st1, lab)) ∧
    (∀ p c t pu, st.hasMarker p = true → (st.marker p).comment = c →
      (st.marker p).markerType = t → 0 ≤ t → t < markerTypesCount →
      st.importFromJson (some [some ⟨some p, some c, some t⟩]) false pu =
        some (true, st, if pu then [importLabel st.guide] else [])) ∧
    (∀ e rest ig pu, isMalformed e = true →
      st.importFromJson (some (e :: rest)) ig pu =
        st.importFromJson (some rest) ig pu) := by
  have hmaster := fun l => importLoop_master l st [] [] st hInv rfl ⟨st, rfl, rfl⟩
    (fun p hp => ⟨hp, rfl⟩)
  refine ⟨?_, ?_, ?_, ?_⟩
  · intro l pu res st1 lab h hres
    obtain ⟨res2, st2, u2, r2, heq, hf, _⟩ := hmaster l
    simp only [MarkerListModel.importFromJson, MarkerListModel.importFromJsonUR, heq] at h
    injection h with h1
    injection h1 with ha hb
    injection hb with hb1 hb2
    rw [← ha] at hres
    rw [← hb1]
    exact hf hres
  · intro l pu hany
    obtain ⟨res2, st2, u2, r2, heq, hf, htr⟩ := hmaster l
    cases hres : res2 with
    | false =>
      refine ⟨st2, if pu then [importLabel st.guide] else [], ?_⟩
      simp only [MarkerListModel.importFromJson, MarkerListModel.importFromJsonUR, heq]
      rw [hres]
    | true =>
      exfalso
      have hnone := (htr hres).2.2.2.2
      rw [hnone] at hany
      exact Bool.noConfusion hany
  · intro p c t pu hm hc ht h0 h9
    have hb1 : ((st.marker p).comment == c) = true := by
      rw [hc]
      exact beq_self_eq_true _
    have htres : resolveType t = t := by
      unfold resolveType
      rw [if_neg (by omega)]
    have hb2 : (t == (st.marker p).markerType) = true := by
      rw [ht]
      exact beq_self_eq_true _
    simp only [MarkerListModel.importFromJson, MarkerListModel.importFromJsonUR,
      MarkerListModel.importLoop, Option.getD_some]
    rw [htres, if_pos (show True ∧ st.hasMarker p = true from ⟨trivial, hm⟩), hb1, hb2,
      if_pos (show (true && true) = true from rfl), addMarkerUR_rename [] [] hm ⟨h0, h9⟩,
      applyChg_identity hInv hm hc.symm ht.symm]
    rfl
  · intro e rest ig pu hmal
    cases e with
    | none => rfl
    | some r =>
      obtain ⟨rpos, rc, rt⟩ := r
      cases rpos with
      | none => rfl
      | some pp => simp [isMalformed] at hmal

theorem importFromJson_conflict_rollback_witness :
    MarkerListModel.observable exSt = MarkerListModel.observable exSt ∧
    exSt.importFromJson (some [some ⟨some 100, some "A", some 0⟩]) false true =
      some (true, exSt, [importLabel exSt.guide]) := by
  constructor
  · exact (importFromJson_conflict_rollback exSt (by decide)).1
      [some ⟨some 100, some "B", some 0⟩] true false exSt [importLabel exSt.guide]
      (by decide) rfl
  · exact (importFromJson_conflict_rollback exSt (by decide)).2.2.1 100 "A" 0 true
      (by decide) (by decide) (by decide) (by decide) (by decide)

/-- C5: `toJson` serializes every marker as a `{pos, comment, type}`
record in the iteration order of the id-keyed storage (not sorted by
time), and importing that output into a fresh list reproduces exactly
the same markers (position, comment and type), a lossless round-trip. -/
theorem toJson_roundtrip (st : MarkerListModel) (hInv : st.Inv) (htv : st.typesValid) :
    st.toJson = st.markerList.map (fun ic =>
      some ⟨some ic.2.time, some ic.2.comment, some ic.2.markerType⟩) ∧
    (∀ g n pu, ∃ st1 lab,
      (emptyModel g n).importFromJson (some st.toJson) false pu = some (true, st1, lab) ∧
      st1.markerList.map entryTriple = st.markerList.map entryTriple) := by
  refine ⟨rfl, ?_⟩
  intro g n pu
  have hInvE : (emptyModel g n).Inv :=
    ⟨rfl, rfl, fun x hx => absurd hx (List.not_mem_nil x),
      fun x hx => absurd hx (List.not_mem_nil x),
      fun x hx => absurd hx (List.not_mem_nil x)⟩
  have hw : ∀ e ∈ st.toJson, ∃ p c t, e = some ⟨some p, some c, some t⟩ ∧ 0 ≤ t ∧
      t < markerTypesCount ∧ (emptyModel g n).hasMarker p = false := by
    intro e he
    obtain ⟨ic, hicmem, rfl⟩ := List.mem_map.mp he
    exact ⟨ic.2.time, ic.2.comment, ic.2.markerType, rfl, (htv ic hicmem).1,
      (htv ic hicmem).2, rfl⟩
  have hnd : st.toJson.Pairwise (fun e1 e2 => recPos e1 ≠ recPos e2) := by
    refine List.pairwise_map.mpr ?_
    exact (markerTimes_pairwise hInv).imp (fun h => h)
  obtain ⟨st1, u1, r1, heq, hmap, _⟩ :=
    importLoop_clean st.toJson (emptyModel g n) [] [] false hInvE hw hnd
  refine ⟨st1, if pu then [importLabel (emptyModel g n).guide] else [], ?_, ?_⟩
  · simp only [MarkerListModel.importFromJson, MarkerListModel.importFromJsonUR, heq]
  · rw [hmap]
    show [] ++ (st.toJson).map recTriple = _
    rw [List.nil_append]
    show (st.markerList.map _).map recTriple = _
    rw [List.map_map]
    rfl

theorem toJson_roundtrip_witness :
    exSt.toJson = exSt.markerList.map (fun ic =>
      some ⟨some ic.2.time, some ic.2.comment, some ic.2.markerType⟩) := by
  exact (toJson_roundtrip exSt (by decide) (by decide)).1

/-- C9: a record whose type field lies outside the palette 0..8 is not
rejected: `importFromJson` imports it with the type forced to 0. -/
theorem importFromJson_type_clamped (st : MarkerListModel) (p : Int) (c : String) (t : Int)
    (ig pu : Bool) (hInv : st.Inv) (hp : st.hasMarker p = false)
    (hbad : t < 0 ∨ markerTypesCount ≤ t) :
    st.importFromJson (some [some ⟨some p, some c, some t⟩]) ig pu =
      some (true, st.applyAdd p c 0, if pu then [importLabel st.guide] else []) ∧
    mapLookup p (st.applyAdd p c 0).markerPositions = some (st.nextId + 1) ∧
    mapLookup (st.nextId + 1) (st.applyAdd p c 0).markerList = some ⟨p, c, 0⟩ := by
  have htres : resolveType t = 0 := by
    unfold resolveType
    rw [if_pos hbad]
  refine ⟨?_, ?_, ?_⟩
  · simp only [MarkerListModel.importFromJson, MarkerListModel.importFromJsonUR,
      MarkerListModel.importLoop, Option.getD_some]
    have hcond : ¬(ig = false ∧ st.hasMarker p = true) := fun hc => by
      rw [hp] at hc
      exact Bool.noConfusion hc.2
    rw [htres, if_neg hcond, if_pos rfl, addMarkerUR_fresh [] [] hp (by decide)]
    rfl
  · exact mapLookup_mapInsert_self _ _ _
  · exact mapLookup_mapInsert_self _ _ _

theorem importFromJson_type_clamped_witness :
    exSt.importFromJson (some [some ⟨some 50, some "x", some 77⟩]) false false =
      some (true, exSt.applyAdd 50 "x" 0, []) := by
  exact (importFromJson_type_clamped exSt 50 "x" 77 false false (by decide) (by decide)
    (by decide)).1

/-- C4: under the consistency invariant no two markers share a frame
(ids at equal times coincide), and the invariant — key-sorted storage,
position index and id-keyed storage agreeing exactly, ids bounded by the
counter — is preserved by every marker-list operation: add, remove,
edit, move, import and remove-all. -/
theorem markerModel_invariant_preserved (st : MarkerListModel) (hInv : st.Inv) :
    (∀ a b, a ∈ st.markerList → b ∈ st.markerList → a.2.time = b.2.time → a.1 = b.1) ∧
    (∀ pos c t out, st.addMarker pos c t = some out → out.2.1.Inv) ∧
    (∀ pos out, st.removeMarker pos = some out → out.2.1.Inv) ∧
    (∀ a b c t out, st.editMarker a b c t = some out → out.2.1.Inv) ∧
    (∀ mid pos out, st.moveMarker mid pos = some out → out.2.Inv) ∧
    (∀ data ig pu out, st.importFromJson data ig pu = some out → out.2.1.Inv) ∧
    (∀ out, st.removeAllMarkers = some out → out.2.1.Inv) := by
  refine ⟨?_, fun pos c t out h => addMarker_inv hInv h,
    fun pos out h => removeMarker_inv hInv h,
    fun a b c t out h => editMarker_inv hInv h,
    fun mid pos out h => moveMarker_inv hInv h,
    fun data ig pu out h => importFromJson_inv hInv h,
    fun out h => removeAllMarkers_inv hInv h⟩
  intro a b ha hb heq
  have h4a := hInv.2.2.2.1 a ha
  have h4b := hInv.2.2.2.1 b hb
  rw [heq] at h4a
  have hsame := h4a.symm.trans h4b
  exact Option.some.inj hsame

theorem markerModel_invariant_preserved_witness :
    ((true, exSt.applyChg 100 "B" 0, [renameLabel exSt.guide]) :
      Bool × MarkerListModel × List String).2.1.Inv := by
  exact (markerModel_invariant_preserved exSt (by decide)).2.1 100 "B" 0
    (true, exSt.applyChg 100 "B" 0, [renameLabel exSt.guide]) (by decide)
